import Mathlib

/-!
Verification of the reference-resolution and rewrite engine of the
github-workflow-updater extension.

The development shallowly embeds the two core components of the repository:

* `WorkflowParser` (src/src/extension.ts, second module): line-oriented
  extraction of action references, line rewriting, patch application, and
  the version-comment helpers.
* `GitHubApiService` (src/unnamed/part_000): the three-tier version
  resolution (releases, tags, default branch) together with the parts of
  the node-semver library it uses (`semver.valid`, `semver.rcompare`).

JavaScript strings are modelled as `String`/`List Char`; the regular
expressions of the source are implemented as deterministic scanners
(each regex used by the source backtracks trivially, which is argued in
the comment next to each scanner).  Network access is modelled by an
explicit environment record of response maps; a `none` response models a
failed request (a thrown transport error).
-/

/-! ## Character classes used by the JavaScript regexes -/

/-- Character class of the JavaScript regex escape `\s` (whitespace):
ASCII whitespace plus the Unicode space characters recognised by
ECMAScript. -/
def isJsSpace (c : Char) : Bool :=
  c = ' ' ∨ c = '\t' ∨ c = '\n' ∨ c = '\x0b' ∨ c = '\x0c' ∨ c = '\r' ∨
  c = '\u00a0' ∨ c = '\u1680' ∨ ('\u2000' ≤ c ∧ c ≤ '\u200a') ∨
  c = '\u2028' ∨ c = '\u2029' ∨ c = '\u202f' ∨ c = '\u205f' ∨
  c = '\u3000' ∨ c = '\ufeff'

/-- Character class of the JavaScript regex escape `\w`: `[A-Za-z0-9_]`. -/
def isWordChar (c : Char) : Bool :=
  c.isAlphanum ∨ c = '_'

/-- Characters matched by the JavaScript regex `.` (any character except
line terminators). -/
def isDotChar (c : Char) : Bool :=
  ¬ (c = '\n' ∨ c = '\r' ∨ c = '\u2028' ∨ c = '\u2029')

/-- Character class `[a-zA-Z0-9-]` of node-semver identifiers. -/
def isIdentChar (c : Char) : Bool :=
  c.isAlphanum ∨ c = '-'

/-! ## Generic list helpers (JavaScript string primitives) -/

/-- Substring test: does `l` contain `pat` as a contiguous run?  Embeds
JavaScript `String.prototype.includes`. -/
def containsSub (pat : List Char) : List Char → Bool
  | [] => pat.isEmpty
  | c :: cs => pat.isPrefixOf (c :: cs) || containsSub pat cs

/-- String-level wrapper for `containsSub`. -/
def strContains (s pat : String) : Bool :=
  containsSub pat.toList s.toList

/-- Case-insensitive anchored match of `pat` against a prefix of the text
(`pat` and text compared through `Char.toLower`, which agrees with the
canonicalisation ECMAScript applies for the `i` flag on ASCII). -/
def matchCI : List Char → List Char → Bool
  | [], _ => true
  | _ :: _, [] => false
  | p :: ps, c :: cs => (Char.toLower c = Char.toLower p) && matchCI ps cs

/-- Case-insensitive search of `pat` anywhere in the text: embeds
`RegExp.prototype.test` for a regex that is a case-insensitive literal. -/
def searchCI (pat : List Char) : List Char → Bool
  | [] => matchCI pat []
  | c :: cs => matchCI pat (c :: cs) || searchCI pat cs

/-- JavaScript `String.prototype.trim`: drop leading and trailing
whitespace. -/
def trimChars (l : List Char) : List Char :=
  (((l.dropWhile isJsSpace).reverse.dropWhile isJsSpace)).reverse

/-- String-level wrapper for `trimChars`. -/
def trimStr (s : String) : String :=
  String.mk (trimChars s.toList)

/-- Embeds JavaScript `content.split('\n')` on character lists:
`"" ↦ [""]`, `"a\n" ↦ ["a", ""]`, separators are single `'\n'`
characters. -/
def splitLinesCh : List Char → List (List Char)
  | [] => [[]]
  | c :: rest =>
    if c = '\n' then [] :: splitLinesCh rest
    else
      match splitLinesCh rest with
      | [] => [[c]]
      | l :: ls => (c :: l) :: ls

/-- Embeds JavaScript `lines.join('\n')` on character lists. -/
def joinLinesCh : List (List Char) → List Char
  | [] => []
  | [l] => l
  | l :: ls => l ++ '\n' :: joinLinesCh ls

/-- `content.split('\n')` on strings. -/
def splitLines (s : String) : List String :=
  (splitLinesCh s.toList).map String.mk

/-- `lines.join('\n')` on strings. -/
def joinLines (ls : List String) : String :=
  String.mk (joinLinesCh (ls.map String.toList))

/-- Stable insertion of `x` into a list sorted by the boolean relation
`le` (used to model `Array.prototype.sort`, which is specified to be a
stable comparator sort). -/
def orderedInsertBy (le : α → α → Bool) (x : α) : List α → List α
  | [] => [x]
  | y :: ys => if le x y then x :: y :: ys else y :: orderedInsertBy le x ys

/-- Stable sort by the boolean relation `le`; `le a b` models
`comparator(a, b) <= 0`.  Embeds `Array.prototype.sort(comparator)`. -/
def sortBy (le : α → α → Bool) : List α → List α
  | [] => []
  | x :: xs => orderedInsertBy le x (sortBy le xs)

/-! ## Data model (src/src/extension.ts, workflow parser module) -/

/-- Embeds the `WorkflowAction` interface. -/
structure WorkflowAction where
  line : Nat
  original : String
  repository : String
  fullPath : String
  currentRef : String
  currentComment : String
  hasSkipPinning : Bool
  indentation : String
deriving DecidableEq, Repr

/-- Embeds the `UpdateResult` interface. -/
structure UpdateResult where
  line : Nat
  original : String
  updated : String
  repository : String
  oldVersion : String
  newVersion : String
  newCommit : String
deriving DecidableEq, Repr

/-! ## The `uses:` line scanner

`ACTION_REGEX = /^(\s*)(?:-\s+)?uses:\s+([^@\s]+)@([^\s#]+)(?:\s*#\s*(.*))?$/`

The regex is anchored at both ends and every quantified piece is followed
by a character its own class excludes, so greedy maximal-munch scanning is
equivalent to the backtracking match:

* `(\s*)` maximal whitespace — neither `-` nor `u` is whitespace;
* `(?:-\s+)?` — if present, `-` followed by at least one whitespace
  character; when the branch with the dash fails the engine retries
  without it, which then requires `uses:` to start at the `-` and fails;
* `([^@\s]+)` maximal — stops exactly at the `@` the regex then demands;
* `([^\s#]+)` maximal — stops at whitespace, `#`, or end of line;
* `(?:\s*#\s*(.*))?$` — after the ref, either the line ends immediately,
  or maximal whitespace must be followed by `#`, maximal whitespace and a
  remainder free of line terminators (`.` does not match them and `$` has
  no multiline behaviour).  A remainder containing a line terminator, or
  trailing whitespace with no `#`, fails the whole match.
-/

/-- Scan one line with `ACTION_REGEX`; on success return the captures
`(indentation, fullPath, ref, comment)` (the comment capture defaults to
the empty list when the comment group did not participate, mirroring the
`comment = ''` destructuring default). -/
def parseUsesLine (cs : List Char) : Option (List Char × List Char × List Char × List Char) :=
  let (indent, r₁) := cs.span isJsSpace
  let afterDash : Option (List Char) :=
    match r₁ with
    | '-' :: rest =>
      let (ws, r) := rest.span isJsSpace
      if ws = [] then none else some r
    | other => some other
  match afterDash with
  | none => none
  | some r₂ =>
    if ("uses:".toList).isPrefixOf r₂ then
      let r₃ := r₂.drop 5
      let (ws₁, r₄) := r₃.span isJsSpace
      if ws₁ = [] then none else
      let (path, r₅) := r₄.span (fun c => !(c = '@' || isJsSpace c))
      if path = [] then none else
      match r₅ with
      | '@' :: r₆ =>
        let (ref, r₇) := r₆.span (fun c => !(isJsSpace c || c = '#'))
        if ref = [] then none else
        match r₇.span isJsSpace with
        | (ws₂, []) => if ws₂ = [] then some (indent, path, ref, []) else none
        | (_, '#' :: r₈) =>
          let c := r₈.dropWhile isJsSpace
          if c.all isDotChar then some (indent, path, ref, c) else none
        | (_, _ :: _) => none
      | _ => none
    else none

/-! ## Repository-identity derivation

`REUSABLE_WORKFLOW_REGEX = /^([^\/]+\/[^\/]+)\/\.github\/workflows\/.*$/`
`SUB_ACTION_REGEX = /^([^\/]+\/[^\/]+)\/(.+)$/`

`[^\/]+` cannot cross a `/`, so both regexes deterministically take the
first two `/`-separated segments and then demand a literal `/` followed
by, respectively, the literal `.github/workflows/` plus anything, or at
least one further character.  (`.` not matching `\n` is irrelevant here:
the path capture of `ACTION_REGEX` contains no whitespace.)
-/

/-- Match against `REUSABLE_WORKFLOW_REGEX`, returning capture group 1.
When the span remainder is nonempty, its head failed the predicate
`c ≠ '/'`, i.e. it is precisely the `/` the regex consumes, so the
wildcard head below is always that slash. -/
def reusableWorkflowMatch (path : String) : Option String :=
  match path.toList.span (fun c => !(c = '/')) with
  | (o, _ :: rest₂) =>
    if o = [] then none else
    match rest₂.span (fun c => !(c = '/')) with
    | (r, _ :: rest₄) =>
      if r ≠ [] ∧ (".github/workflows/".toList).isPrefixOf rest₄ then
        some (String.mk (o ++ '/' :: r))
      else none
    | (_, []) => none
  | (_, []) => none

/-- Match against `SUB_ACTION_REGEX`, returning capture group 1 (same
wildcard-head convention as `reusableWorkflowMatch`). -/
def subActionMatch (path : String) : Option String :=
  match path.toList.span (fun c => !(c = '/')) with
  | (o, _ :: rest₂) =>
    if o = [] then none else
    match rest₂.span (fun c => !(c = '/')) with
    | (r, _ :: rest₄) =>
      if r ≠ [] ∧ rest₄ ≠ [] then some (String.mk (o ++ '/' :: r)) else none
    | (_, []) => none
  | (_, []) => none

/-- The repository-identity derivation of `parseWorkflow` (lines 300-311
of the module): reusable-workflow match wins, else sub-action match when
the path does not contain the substring `.github/workflows`, else the
(trimmed) path itself.  The source applies `.trim()` to the fallback
value; the path capture `[^@\s]+` contains no whitespace, but the call is
kept verbatim. -/
def deriveRepository (fullPath : String) : String :=
  match reusableWorkflowMatch fullPath with
  | some repo => repo
  | none =>
    match subActionMatch fullPath with
    | some repo =>
      if strContains fullPath ".github/workflows" then trimStr fullPath else repo
    | none => trimStr fullPath

/-- `SKIP_PINNING_REGEX = /skip-pinning/i` applied with `.test`. -/
def skipPinningTest (comment : List Char) : Bool :=
  searchCI "skip-pinning".toList comment

/-- Embeds `WorkflowParser.parseWorkflow`: split into lines, scan each
line with `ACTION_REGEX`, and build one `WorkflowAction` per match.  The
source trims the `fullPath`, `ref` and `comment` captures; the first two
cannot contain whitespace (`[^@\s]+`, `[^\s#]+`), so only the comment
trim is observable, but all three are applied verbatim. -/
def parseWorkflow (content : String) : List WorkflowAction :=
  (splitLines content).enum.filterMap fun p =>
    match parseUsesLine p.2.toList with
    | none => none
    | some (indent, path, ref, comment) =>
      some {
        line := p.1
        original := p.2
        repository := deriveRepository (String.mk path)
        fullPath := trimStr (String.mk path)
        currentRef := trimStr (String.mk ref)
        currentComment := trimStr (String.mk comment)
        hasSkipPinning := skipPinningTest comment
        indentation := String.mk indent }

/-- Embeds `WorkflowParser.updateActionLine`. -/
def updateActionLine (action : WorkflowAction) (newVersion newCommit : String) : String :=
  if action.hasSkipPinning then action.original
  else
    let standardizedComment := "tag " ++ newVersion
    let isDashFormat := strContains action.original "- uses:"
    if isDashFormat then
      action.indentation ++ "- uses: " ++ action.fullPath ++ "@" ++ newCommit ++ " # " ++ standardizedComment
    else
      action.indentation ++ "uses: " ++ action.fullPath ++ "@" ++ newCommit ++ " # " ++ standardizedComment

/-- Embeds `WorkflowParser.applyUpdates`: split into lines, process the
updates sorted by descending line number (`(a, b) => b.line - a.line`,
i.e. `a` before `b` when `b.line ≤ a.line`), replacing the line at each
in-bounds recorded index, and rejoin. -/
def applyUpdates (content : String) (updates : List UpdateResult) : String :=
  let lines := splitLines content
  let sortedUpdates := sortBy (fun a b => decide (b.line ≤ a.line)) updates
  let final := sortedUpdates.foldl
    (fun ls u => if u.line < ls.length then ls.set u.line u.updated else ls) lines
  joinLines final

/-! ## Version-comment helpers

`extractVersionFromComment` uses
`/(?:tag\s+)?(v?\d+\.\d+\.\d+(?:[.-]\w+)*)/i` with `String.prototype.match`
(leftmost match, capture group 1).  Again maximal munch is equivalent to
the backtracking search: `\s+`, `\d+` and `\w+` are each followed by a
character their class excludes, the optional `v` cannot be a digit, and
when the optional `tag\s+` prefix matches but the version after it fails,
the retry without the prefix immediately fails on the letter `t`, so at
each start position the regex matches iff the prefixed attempt or the
plain attempt succeeds.  No position strictly inside a matched
`tag\s+` prefix can start a match (its characters are `t`/`a`/`g` or
whitespace), so position-by-position scanning yields the leftmost match.
-/

/-- Greedy scan of `(?:[.-]\w+)*`: returns the matched extension
characters and the remainder.  Each iteration consumes at least two
characters, so fuel equal to the input length suffices; the fuel-0 branch
is unreachable when called that way. -/
def parseExts : Nat → List Char → List Char × List Char
  | 0, cs => ([], cs)
  | _ + 1, [] => ([], [])
  | fuel + 1, c :: rest =>
    if c = '.' ∨ c = '-' then
      match rest.span isWordChar with
      | ([], _) => ([], c :: rest)
      | (w, r) =>
        let (ext, r₂) := parseExts fuel r
        (c :: (w ++ ext), r₂)
    else ([], c :: rest)

/-- Greedy scan of the capture group `v?\d+\.\d+\.\d+(?:[.-]\w+)*`:
returns the captured characters and the remainder. -/
def parseVersionCore (cs : List Char) : Option (List Char × List Char) :=
  let (v, cs₁) :=
    match cs with
    | c :: rest => if c = 'v' ∨ c = 'V' then ([c], rest) else (([] : List Char), cs)
    | [] => ([], cs)
  match cs₁.span Char.isDigit with
  | (d₁, '.' :: cs₂) =>
    if d₁ = [] then none else
    match cs₂.span Char.isDigit with
    | (d₂, '.' :: cs₃) =>
      if d₂ = [] then none else
      match cs₃.span Char.isDigit with
      | (d₃, cs₄) =>
        if d₃ = [] then none else
        let (ext, r) := parseExts cs₄.length cs₄
        some (v ++ d₁ ++ '.' :: d₂ ++ '.' :: d₃ ++ ext, r)
    | (_, _) => none
  | (_, _) => none

/-- Try the whole pattern at one position: first with the optional
case-insensitive `tag\s+` prefix, then without it. -/
def matchVersionAt (cs : List Char) : Option (List Char) :=
  let withTag : Option (List Char) :=
    match cs with
    | t :: a :: g :: rest =>
      if (t = 't' ∨ t = 'T') ∧ (a = 'a' ∨ a = 'A') ∧ (g = 'g' ∨ g = 'G') then
        match rest.span isJsSpace with
        | ([], _) => none
        | (_, r) => (parseVersionCore r).map Prod.fst
      else none
    | _ => none
  match withTag with
  | some v => some v
  | none => (parseVersionCore cs).map Prod.fst

/-- Leftmost-position scan for the version pattern. -/
def findVersion : List Char → Option (List Char)
  | [] => none
  | c :: cs =>
    match matchVersionAt (c :: cs) with
    | some v => some v
    | none => findVersion cs

/-- Embeds `WorkflowParser.extractVersionFromComment`: capture group 1 of
the leftmost match, or the empty string when the comment has no match. -/
def extractVersionFromComment (comment : String) : String :=
  match findVersion comment.toList with
  | some v => String.mk v
  | none => ""

/-- Embeds `WorkflowParser.normalizeVersion`. -/
def normalizeVersion (version : String) : String :=
  if version = "" then ""
  else if version.startsWith "v" then version else "v" ++ version

/-- Embeds `WorkflowParser.areVersionsEqual`. -/
def areVersionsEqual (version1 version2 : String) : Bool :=
  normalizeVersion version1 = normalizeVersion version2

/-! ## Orchestrator steps (src/src/extension.ts, `updateWorkflowCommand`) -/

/-- Embeds the `ActionUpdate` interface (src/unnamed/part_000). -/
structure ActionUpdate where
  currentVersion : String
  latestVersion : String
  latestCommit : String
  repository : String
deriving DecidableEq, Repr

/-- The skip-pinning filter of `updateWorkflowCommand` (line 82): the
actions the resolution loop iterates over. -/
def actionsToUpdate (content : String) : List WorkflowAction :=
  (parseWorkflow content).filter (fun action => !action.hasSkipPinning)

/-- The per-action decision step of `updateWorkflowCommand`
(lines 114-144), given a non-null resolution outcome: skip when the
current ref has full-hash length and either the comment version matches
or the ref already equals the resolved commit; otherwise build the
`UpdateResult` that is pushed onto the update list. -/
def decideUpdate (action : WorkflowAction) (updateInfo : ActionUpdate) : Option UpdateResult :=
  let currentVersion := extractVersionFromComment action.currentComment
  let isAlreadyPinned := action.currentRef.length == 40
  let isSameVersion := areVersionsEqual currentVersion updateInfo.latestVersion
  let isSameCommit := action.currentRef == updateInfo.latestCommit
  if isAlreadyPinned && (isSameVersion || isSameCommit) then none
  else some {
    line := action.line
    original := action.original
    updated := updateActionLine action updateInfo.latestVersion updateInfo.latestCommit
    repository := action.repository
    oldVersion := if currentVersion = "" then action.currentRef else currentVersion
    newVersion := updateInfo.latestVersion
    newCommit := updateInfo.latestCommit }

/-! ## node-semver (the parts used by `GitHubApiService`)

`semver.valid` parses with the strict `FULL` grammar
`^v?(0|[1-9]\d*)\.(0|[1-9]\d*)\.(0|[1-9]\d*)`
`(?:-((?:0|[1-9]\d*|\d*[a-zA-Z-][a-zA-Z0-9-]*)(?:\.(?:0|[1-9]\d*|\d*[a-zA-Z-][a-zA-Z0-9-]*))*))?`
`(?:\+([0-9a-zA-Z-]+(?:\.[0-9a-zA-Z-]+)*))?$`
after rejecting inputs longer than 256 characters, and rejects numeric
components above `Number.MAX_SAFE_INTEGER`.  Identifiers cannot contain
`.`, so the dot-separated token decomposition is forced and maximal-munch
scanning is again equivalent to the backtracking match.  Numeric
prerelease identifiers below `MAX_SAFE_INTEGER` are stored as numbers,
larger ones stay strings.  (`number` conversion of 17-plus-digit
identifiers rounds to binary floating point in JavaScript; this model
compares such out-of-range identifiers exactly instead.  Build metadata
is validated but not stored: comparison ignores it.) -/

/-- `MAX_SAFE_INTEGER`. -/
def maxSafeInteger : Nat := 9007199254740991

/-- A stored prerelease identifier: a number or a string. -/
inductive PreId where
  | num : Nat → PreId
  | str : List Char → PreId
deriving DecidableEq, Repr

/-- A parsed semantic version (build metadata not stored). -/
structure SemVer where
  major : Nat
  minor : Nat
  patch : Nat
  prerelease : List PreId
deriving DecidableEq, Repr

/-- Numeric value of a digit character. -/
def digitVal (c : Char) : Nat := c.toNat - 48

/-- Numeric value of a digit string (JavaScript `Number` coercion of a
digit-only identifier). -/
def digitsVal (s : List Char) : Nat :=
  s.foldl (fun a c => 10 * a + digitVal c) 0

/-- Leading-zero test for the numeric grammar `0|[1-9]\d*`. -/
def noLeadZero : List Char → Bool
  | '0' :: _ :: _ => false
  | _ => true

/-- Parse one numeric version component `(0|[1-9]\d*)` greedily. -/
def parseNumComp (cs : List Char) : Option (Nat × List Char) :=
  let (d, rest) := cs.span Char.isDigit
  if d = [] then none
  else if noLeadZero d then some (digitsVal d, rest) else none

/-- Split a character list on `.` (identifier-section tokenisation). -/
def splitDot : List Char → List (List Char)
  | [] => [[]]
  | c :: rest =>
    if c = '.' then [] :: splitDot rest
    else
      match splitDot rest with
      | [] => [[c]]
      | l :: ls => (c :: l) :: ls

/-- Classify one prerelease token: `0|[1-9]\d*|\d*[a-zA-Z-][a-zA-Z0-9-]*`,
stored as a number when numeric and below `MAX_SAFE_INTEGER`. -/
def classifyTok (t : List Char) : Option PreId :=
  if t = [] then none
  else if t.all Char.isDigit then
    if noLeadZero t then
      some (if digitsVal t < maxSafeInteger then .num (digitsVal t) else .str t)
    else none
  else if t.all isIdentChar then some (.str t) else none

/-- Classify every prerelease token. -/
def classifyAll : List (List Char) → Option (List PreId)
  | [] => some []
  | t :: ts =>
    match classifyTok t, classifyAll ts with
    | some id, some ids => some (id :: ids)
    | _, _ => none

/-- One build token: `[0-9a-zA-Z-]+`. -/
def buildTokOk (t : List Char) : Bool :=
  !t.isEmpty && t.all isIdentChar

/-- Validate a build-metadata section `[0-9a-zA-Z-]+(\.[0-9a-zA-Z-]+)*`
that must consume the whole remainder. -/
def buildOk (cs : List Char) : Bool :=
  (splitDot cs).all buildTokOk

/-- Parse the optional prerelease and build sections after the patch
component; the remainder must be consumed entirely (`$`). -/
def parseTail (cs : List Char) : Option (List PreId) :=
  match cs with
  | [] => some []
  | '+' :: rest => if buildOk rest then some [] else none
  | '-' :: rest =>
    match classifyAll (splitDot (rest.takeWhile (fun c => isIdentChar c || c = '.'))) with
    | none => none
    | some ids =>
      match rest.dropWhile (fun c => isIdentChar c || c = '.') with
      | [] => some ids
      | '+' :: rest₃ => if buildOk rest₃ then some ids else none
      | _ => none
  | _ => none

/-- Embeds `semver.valid` (as a parser): `none` iff `semver.valid`
returns `null`. -/
def parseSemver (s : String) : Option SemVer :=
  let cs := s.toList
  if 256 < cs.length then none else
  let cs₁ := match cs with
    | 'v' :: rest => rest
    | _ => cs
  match parseNumComp cs₁ with
  | some (maj, '.' :: r₂) =>
    (match parseNumComp r₂ with
     | some (minr, '.' :: r₃) =>
       (match parseNumComp r₃ with
        | some (pat, r₄) =>
          if maj ≤ maxSafeInteger ∧ minr ≤ maxSafeInteger ∧ pat ≤ maxSafeInteger then
            (parseTail r₄).map fun ids => ⟨maj, minr, pat, ids⟩
          else none
        | none => none)
     | _ => none)
  | _ => none

/-- A total default for contexts where the source guarantees validity. -/
def parseD (s : String) : SemVer :=
  (parseSemver s).getD ⟨0, 0, 0, []⟩

/-- Three-way comparison on `Nat` (JavaScript number comparison). -/
def natCmp (a b : Nat) : Ordering :=
  if a < b then .lt else if b < a then .gt else .eq

/-- Lexicographic comparison of character lists (JavaScript `<` on
strings, by code unit; all identifier characters are ASCII). -/
def strCmp : List Char → List Char → Ordering
  | [], [] => .eq
  | [], _ :: _ => .lt
  | _ :: _, [] => .gt
  | a :: as, b :: bs => (natCmp a.toNat b.toNat).then (strCmp as bs)

/-- Is the identifier numeric under re-test (`/^[0-9]+$/` on its string
form)?  Stored numbers always are; stored strings only when all digits. -/
def isNumId : PreId → Bool
  | .num _ => true
  | .str s => !s.isEmpty && s.all Char.isDigit

/-- Numeric value of an identifier (only meaningful when `isNumId`). -/
def idVal : PreId → Nat
  | .num n => n
  | .str s => digitsVal s

/-- Characters of an identifier (only used when not numeric, i.e. for
stored strings). -/
def idChars : PreId → List Char
  | .num _ => []
  | .str s => s

/-- Embeds node-semver `compareIdentifiers`. -/
def preIdCmp (a b : PreId) : Ordering :=
  if isNumId a && isNumId b then natCmp (idVal a) (idVal b)
  else if isNumId a then .lt
  else if isNumId b then .gt
  else strCmp (idChars a) (idChars b)

/-- The element-wise loop of node-semver `comparePre` (both lists known
nonempty at entry; a missing element loses). -/
def preLoop : List PreId → List PreId → Ordering
  | [], [] => .eq
  | _ :: _, [] => .gt
  | [], _ :: _ => .lt
  | a :: as, b :: bs => if a = b then preLoop as bs else preIdCmp a b

/-- Embeds node-semver `comparePre`: a version with a prerelease sorts
below the same version without one. -/
def comparePre (a b : List PreId) : Ordering :=
  match a, b with
  | _ :: _, [] => .lt
  | [], _ :: _ => .gt
  | [], [] => .eq
  | _ :: _, _ :: _ => preLoop a b

/-- Embeds node-semver `compareMain`. -/
def compareMain (x y : SemVer) : Ordering :=
  (natCmp x.major y.major).then ((natCmp x.minor y.minor).then (natCmp x.patch y.patch))

/-- Embeds node-semver `compare` on parsed versions. -/
def semverCompare (x y : SemVer) : Ordering :=
  (compareMain x y).then (comparePre x.prerelease y.prerelease)

/-- node-semver `compare` on version strings; the source only applies it
to strings that passed `semver.valid`, so the default of `parseD` is
never reached from the embedded service. -/
def semverCompareStr (a b : String) : Ordering :=
  semverCompare (parseD a) (parseD b)

/-! ## GitHubApiService (src/unnamed/part_000) -/

/-- Embeds the `GitHubTag` interface (`commit.sha` flattened into a
one-field record). -/
structure CommitRef where
  sha : String
deriving DecidableEq, Repr

/-- Embeds the `GitHubTag` interface. -/
structure GitHubTag where
  name : String
  commit : CommitRef
deriving DecidableEq, Repr

/-- Embeds the `GitHubRelease` interface. -/
structure GitHubRelease where
  tag_name : String
  target_commitish : String
  prerelease : Bool
deriving DecidableEq, Repr

/-- The `object` part of a `/git/refs/tags/<tag>` response: `type`,
`sha` and `url` (field `type` renamed, `type` being reserved). -/
structure GitRefObject where
  objType : String
  sha : String
  url : String
deriving DecidableEq, Repr

/-- The `object` part of a tag-object response. -/
structure TagObjectResp where
  sha : String
deriving DecidableEq, Repr

/-- The part of a repository-info response the service reads. -/
structure RepoInfo where
  default_branch : String
deriving DecidableEq, Repr

/-- The GitHub API modelled as an environment of responses; `none`
models a failed request (`makeRequest` rejecting). -/
structure GitHubEnv where
  releases : String → Option (List GitHubRelease)
  tags : String → Option (List GitHubTag)
  refForTag : String → String → Option GitRefObject
  tagObject : String → Option TagObjectResp
  repoInfo : String → Option RepoInfo
  commitForBranch : String → String → Option CommitRef

/-- Lift an environment response into the service's error monad. -/
def orErr : Option α → Except Unit α
  | some a => .ok a
  | none => .error ()

/-- The comparator order of `.sort((a, b) => semver.rcompare(...))` on
releases: `a` sorts no later than `b` iff `rcompare(a, b) ≤ 0`, i.e.
`compare(b, a) ≠ gt`. -/
def releaseLe (a b : GitHubRelease) : Bool :=
  semverCompareStr b.tag_name a.tag_name ≠ .gt

/-- Same comparator order on tags. -/
def tagLe (a b : GitHubTag) : Bool :=
  semverCompareStr b.name a.name ≠ .gt

/-- Embeds `GitHubApiService.findLatestSemverRelease`: drop prereleases
and invalid tags, sort descending by semver, take the first element. -/
def findLatestSemverRelease (releases : List GitHubRelease) : Option GitHubRelease :=
  (sortBy releaseLe
    ((releases.filter (fun release => !release.prerelease)).filter
      (fun release => (parseSemver release.tag_name).isSome))).head?

/-- Embeds `GitHubApiService.findLatestSemverTag`. -/
def findLatestSemverTag (tags : List GitHubTag) : Option GitHubTag :=
  (sortBy tagLe (tags.filter (fun tag => (parseSemver tag.name).isSome))).head?

/-- Embeds `GitHubApiService.getCommitForTag`: resolve the tag ref,
dereference annotated tag objects, and on any request failure fall back
to searching the tags list (`tag?.commit.sha || ''`). -/
def getCommitForTag (env : GitHubEnv) (repository tagName : String) : Except Unit String :=
  let fallback : Except Unit String :=
    match env.tags repository with
    | some tags => .ok (((tags.find? (fun t => t.name == tagName)).map
        (fun t => t.commit.sha)).getD "")
    | none => .error ()
  match env.refForTag repository tagName with
  | some tagRef =>
    if tagRef.objType = "tag" then
      match env.tagObject tagRef.url with
      | some tagObj => .ok tagObj.sha
      | none => fallback
    else .ok tagRef.sha
  | none => fallback

/-- The tags tier and default-branch tier of `getLatestActionVersion`
(the code after the releases block, reached when the releases tier
produced no candidate). -/
def tagsTier (env : GitHubEnv) (repository : String) : Except Unit ActionUpdate := do
  let tags ← orErr (env.tags repository)
  match tags with
  | [] => do
    let info ← orErr (env.repoInfo repository)
    let defaultBranch := if info.default_branch = "" then "main" else info.default_branch
    let latestCommit ← orErr (env.commitForBranch repository defaultBranch)
    return ⟨"", defaultBranch, latestCommit.sha, repository⟩
  | mostRecentTag :: _ =>
    match findLatestSemverTag tags with
    | some latestTag => return ⟨"", latestTag.name, latestTag.commit.sha, repository⟩
    | none => return ⟨"", mostRecentTag.name, mostRecentTag.commit.sha, repository⟩

/-- Embeds `GitHubApiService.getLatestActionVersion`: releases tier,
then tags tier, then default branch; any request failure propagates as
the wrapped thrown error (`Except.error`). -/
def getLatestActionVersion (env : GitHubEnv) (repository : String) : Except Unit ActionUpdate := do
  let releases ← orErr (env.releases repository)
  if releases.length > 0 then
    match findLatestSemverRelease releases with
    | some latestRelease => do
      let sha ← getCommitForTag env repository latestRelease.tag_name
      return ⟨"", latestRelease.tag_name, sha, repository⟩
    | none => tagsTier env repository
  else tagsTier env repository

/-! ## Line split/join lemmas -/

theorem splitLinesCh_ne_nil (cs : List Char) : splitLinesCh cs ≠ [] := by
  induction cs with
  | nil => simp [splitLinesCh]
  | cons c rest ih =>
    simp only [splitLinesCh]
    split
    · simp
    · cases h : splitLinesCh rest with
      | nil => simp
      | cons l ls => simp

theorem joinLinesCh_splitLinesCh (cs : List Char) :
    joinLinesCh (splitLinesCh cs) = cs := by
  induction cs with
  | nil => rfl
  | cons c rest ih =>
    simp only [splitLinesCh]
    split
    · rename_i hc
      subst hc
      cases h : splitLinesCh rest with
      | nil => exact absurd h (splitLinesCh_ne_nil rest)
      | cons l ls =>
        rw [h] at ih
        cases ls with
        | nil => simpa [joinLinesCh] using ih
        | cons l₂ ls₂ => simpa [joinLinesCh] using ih
    · cases h : splitLinesCh rest with
      | nil => exact absurd h (splitLinesCh_ne_nil rest)
      | cons l ls =>
        rw [h] at ih
        cases ls with
        | nil => simpa [joinLinesCh] using ih
        | cons l₂ ls₂ => simpa [joinLinesCh] using ih

theorem not_mem_of_mem_splitLinesCh {cs : List Char} {l : List Char}
    (h : l ∈ splitLinesCh cs) : '\n' ∉ l := by
  induction cs generalizing l with
  | nil =>
    simp only [splitLinesCh, List.mem_singleton] at h
    simp [h]
  | cons c rest ih =>
    simp only [splitLinesCh] at h
    split at h
    · rcases List.mem_cons.mp h with h₁ | h₂
      · simp [h₁]
      · exact ih h₂
    · rename_i hc
      cases hsp : splitLinesCh rest with
      | nil => exact absurd hsp (splitLinesCh_ne_nil rest)
      | cons l₀ ls₀ =>
        rw [hsp] at h
        rcases List.mem_cons.mp h with h₁ | h₂
        · subst h₁
          intro hmem
          rcases List.mem_cons.mp hmem with h₃ | h₄
          · exact hc h₃.symm
          · exact ih (hsp ▸ List.mem_cons_self l₀ ls₀) h₄
        · exact ih (hsp ▸ List.mem_cons_of_mem l₀ h₂)

theorem splitLinesCh_no_newline {cs : List Char} (h : '\n' ∉ cs) :
    splitLinesCh cs = [cs] := by
  induction cs with
  | nil => rfl
  | cons c rest ih =>
    have hc : c ≠ '\n' := fun hx => h (hx ▸ List.mem_cons_self c rest)
    have hrest : '\n' ∉ rest := fun hx => h (List.mem_cons_of_mem c hx)
    simp only [splitLinesCh, if_neg (fun hx => hc hx), ih hrest]

theorem splitLinesCh_append_newline {cs : List Char} (h : '\n' ∉ cs)
    (rest : List Char) :
    splitLinesCh (cs ++ '\n' :: rest) = cs :: splitLinesCh rest := by
  induction cs with
  | nil => simp [splitLinesCh]
  | cons c cs ih =>
    have hc : c ≠ '\n' := fun hx => h (hx ▸ List.mem_cons_self c cs)
    have hcs : '\n' ∉ cs := fun hx => h (List.mem_cons_of_mem c hx)
    simp only [List.cons_append, splitLinesCh, if_neg (fun hx => hc hx)]
    rw [show splitLinesCh (cs.append ('\n' :: rest)) = cs :: splitLinesCh rest from ih hcs]

theorem splitLinesCh_joinLinesCh (ls : List (List Char)) (hne : ls ≠ [])
    (hnl : ∀ l ∈ ls, '\n' ∉ l) : splitLinesCh (joinLinesCh ls) = ls := by
  induction ls with
  | nil => exact absurd rfl hne
  | cons l ls ih =>
    cases ls with
    | nil =>
      show splitLinesCh (joinLinesCh [l]) = [l]
      simp only [joinLinesCh]
      exact splitLinesCh_no_newline (hnl l (List.mem_cons_self l []))
    | cons l₂ ls₂ =>
      show splitLinesCh (l ++ '\n' :: joinLinesCh (l₂ :: ls₂)) = l :: l₂ :: ls₂
      rw [splitLinesCh_append_newline (hnl l (List.mem_cons_self l _))]
      rw [ih (by simp) (fun x hx => hnl x (List.mem_cons_of_mem l hx))]

theorem toList_mk (l : List Char) : (String.mk l).toList = l := rfl

theorem mk_toList (s : String) : String.mk s.toList = s := rfl

theorem map_mk_map_toList (t : List String) :
    (t.map String.toList).map String.mk = t := by
  induction t with
  | nil => rfl
  | cons x xs ih => simp only [List.map_cons, mk_toList, ih]

theorem map_toList_map_mk (t : List (List Char)) :
    (t.map String.mk).map String.toList = t := by
  induction t with
  | nil => rfl
  | cons x xs ih => simp only [List.map_cons, toList_mk, ih]

theorem splitLines_joinLines (ls : List String) (hne : ls ≠ [])
    (hnl : ∀ l ∈ ls, '\n' ∉ l.toList) : splitLines (joinLines ls) = ls := by
  unfold splitLines joinLines
  rw [toList_mk, splitLinesCh_joinLinesCh]
  · exact map_mk_map_toList ls
  · simpa using hne
  · intro l hl
    rcases List.mem_map.mp hl with ⟨s, hs, rfl⟩
    exact hnl s hs

theorem length_splitLines_pos (s : String) : 0 < (splitLines s).length := by
  unfold splitLines
  rw [List.length_map]
  cases h : splitLinesCh s.toList with
  | nil => exact absurd h (splitLinesCh_ne_nil _)
  | cons l ls => simp

theorem not_mem_of_mem_splitLines {s : String} {l : String}
    (h : l ∈ splitLines s) : '\n' ∉ l.toList := by
  unfold splitLines at h
  rcases List.mem_map.mp h with ⟨cl, hcl, rfl⟩
  rw [toList_mk]
  exact not_mem_of_mem_splitLinesCh hcl

theorem mem_orderedInsertBy {le : α → α → Bool} {x a : α} {l : List α} :
    a ∈ orderedInsertBy le x l ↔ a = x ∨ a ∈ l := by
  induction l with
  | nil => simp [orderedInsertBy]
  | cons y ys ih =>
    simp only [orderedInsertBy]
    split
    · simp [List.mem_cons]
    · simp only [List.mem_cons, ih]
      tauto

theorem mem_sortBy {le : α → α → Bool} {a : α} {l : List α} :
    a ∈ sortBy le l ↔ a ∈ l := by
  induction l with
  | nil => simp [sortBy]
  | cons x xs ih =>
    simp only [sortBy, mem_orderedInsertBy, ih, List.mem_cons]

/-- The line-replacement fold of `applyUpdates` preserves the number of
lines. -/
theorem length_foldl_set (us : List UpdateResult) (ls : List String) :
    (us.foldl (fun ls u => if u.line < ls.length then ls.set u.line u.updated else ls) ls).length
      = ls.length := by
  induction us generalizing ls with
  | nil => rfl
  | cons u us ih =>
    simp only [List.foldl_cons]
    rw [ih]
    split <;> simp

/-- The line-replacement fold leaves every index absent from the update
list untouched. -/
theorem getElem?_foldl_set (us : List UpdateResult) (ls : List String) (i : Nat)
    (h : ∀ u ∈ us, u.line ≠ i) :
    (us.foldl (fun ls u => if u.line < ls.length then ls.set u.line u.updated else ls) ls)[i]?
      = ls[i]? := by
  induction us generalizing ls with
  | nil => rfl
  | cons u us ih =>
    simp only [List.foldl_cons]
    rw [ih _ (fun v hv => h v (List.mem_cons_of_mem u hv))]
    split
    · exact List.getElem?_set_ne (h u (List.mem_cons_self u us))
    · rfl

/-- Every line of the fold result comes from the original lines or from
an update. -/
theorem mem_foldl_set (us : List UpdateResult) (ls : List String) (l : String)
    (h : l ∈ us.foldl (fun ls u => if u.line < ls.length then ls.set u.line u.updated else ls) ls) :
    l ∈ ls ∨ ∃ u ∈ us, l = u.updated := by
  induction us generalizing ls with
  | nil => exact Or.inl h
  | cons u us ih =>
    simp only [List.foldl_cons] at h
    rcases ih _ h with h₁ | ⟨v, hv, rfl⟩
    · split at h₁
      · rcases List.mem_or_eq_of_mem_set h₁ with h₂ | h₂
        · exact Or.inl h₂
        · exact Or.inr ⟨u, List.mem_cons_self u us, h₂⟩
      · exact Or.inl h₁
    · exact Or.inr ⟨v, List.mem_cons_of_mem u hv, rfl⟩

/-- CLAIM C8: applying the rewrite engine with an empty decision list
returns the input text exactly, character for character. -/
theorem applyUpdates_nil_eq (content : String) : applyUpdates content [] = content := by
  unfold applyUpdates sortBy
  simp only [List.foldl_nil]
  unfold joinLines splitLines
  rw [map_toList_map_mk, joinLinesCh_splitLinesCh, mk_toList]

/-- CLAIM C7 (as stated, counterexample): a decision list with in-bounds
line indices whose replacement text contains the line separator changes
the number of lines of the text, so `applyUpdates` does not always
preserve the line count. -/
theorem applyUpdates_newline_counterexample :
    (UpdateResult.line ⟨0, "a", "x\ny", "r", "", "", ""⟩) < (splitLines "a\nb").length ∧
    (splitLines (applyUpdates "a\nb" [⟨0, "a", "x\ny", "r", "", "", ""⟩])).length ≠
      (splitLines "a\nb").length := by
  decide

/-- CLAIM C7 (amended): for every original text and every decision list
whose recorded line indices are within bounds and whose replacement
lines contain no line separator, `applyUpdates` returns a text with
exactly the same number of lines as the input, in which every line whose
index is not mentioned in the decision list is byte-for-byte identical
to the corresponding input line. -/
theorem applyUpdates_frame (content : String) (updates : List UpdateResult)
    (hin : ∀ u ∈ updates, u.line < (splitLines content).length)
    (hnl : ∀ u ∈ updates, '\n' ∉ u.updated.toList) :
    (splitLines (applyUpdates content updates)).length = (splitLines content).length ∧
    ∀ i, (∀ u ∈ updates, u.line ≠ i) →
      (splitLines (applyUpdates content updates))[i]? = (splitLines content)[i]? := by
  have hsplit : splitLines (applyUpdates content updates) =
      (sortBy (fun a b => decide (b.line ≤ a.line)) updates).foldl
        (fun ls u => if u.line < ls.length then ls.set u.line u.updated else ls)
        (splitLines content) := by
    unfold applyUpdates
    apply splitLines_joinLines
    · intro hnil
      have := length_foldl_set (sortBy (fun a b => decide (b.line ≤ a.line)) updates)
        (splitLines content)
      rw [hnil] at this
      have hpos := length_splitLines_pos content
      simp at this
      omega
    · intro l hl
      rcases mem_foldl_set _ _ _ hl with h₁ | ⟨u, hu, rfl⟩
      · exact not_mem_of_mem_splitLines h₁
      · exact hnl u (mem_sortBy.mp hu)
  refine ⟨?_, ?_⟩
  · rw [hsplit]
    exact length_foldl_set _ _
  · intro i hi
    rw [hsplit]
    exact getElem?_foldl_set _ _ i (fun u hu => hi u (mem_sortBy.mp hu))

/-- Witness for the amended C7 at a concrete text and decision. -/
theorem applyUpdates_frame_witness :
    (splitLines (applyUpdates "a\nb" [⟨0, "a", "X", "r", "", "", ""⟩])).length
        = (splitLines "a\nb").length ∧
    (splitLines (applyUpdates "a\nb" [⟨0, "a", "X", "r", "", "", ""⟩]))[1]?
        = (splitLines "a\nb")[1]? := by
  have h := applyUpdates_frame "a\nb" [⟨0, "a", "X", "r", "", "", ""⟩]
    (by decide) (by decide)
  exact ⟨h.1, h.2 1 (by decide)⟩

/-- CLAIM C10: for every extracted reference with `hasSkipPinning`,
`updateActionLine` returns the original source line verbatim, for all
display-version and commit-hash arguments. -/
theorem updateActionLine_skip (action : WorkflowAction) (newVersion newCommit : String)
    (h : action.hasSkipPinning = true) :
    updateActionLine action newVersion newCommit = action.original := by
  unfold updateActionLine
  rw [h]
  simp

/-- Witness for C10 at a concrete skip-marked reference. -/
theorem updateActionLine_skip_witness :
    updateActionLine ⟨5, "  - uses: a/b@main # skip-pinning", "a/b", "a/b", "main",
        "skip-pinning", true, "  "⟩ "v9" "h9"
      = "  - uses: a/b@main # skip-pinning" :=
  updateActionLine_skip _ "v9" "h9" rfl

/-- The decision step produces a decision exactly when the
already-pinned/same-version/same-commit test fails. -/
theorem decideUpdate_isSome (action : WorkflowAction) (updateInfo : ActionUpdate) :
    (decideUpdate action updateInfo).isSome =
      !(action.currentRef.length == 40 &&
        (areVersionsEqual (extractVersionFromComment action.currentComment)
            updateInfo.latestVersion ||
          action.currentRef == updateInfo.latestCommit)) := by
  by_cases hc : (action.currentRef.length == 40 &&
      (areVersionsEqual (extractVersionFromComment action.currentComment)
          updateInfo.latestVersion ||
        action.currentRef == updateInfo.latestCommit)) = true
  · simp [decideUpdate, hc]
  · simp [decideUpdate, hc]

/-- CLAIM C1: for a non-skip-marked extracted reference and any resolved
outcome, a rewrite decision is produced iff it is not the case that the
current ref is exactly 40 characters long and either the comment-derived
version equals the resolved version after `v`-normalisation or the
current ref equals the resolved commit verbatim; in particular any ref
whose length is not 40 always produces a decision. -/
theorem decideUpdate_decision_iff (action : WorkflowAction) (updateInfo : ActionUpdate)
    (hskip : action.hasSkipPinning = false) :
    ((decideUpdate action updateInfo).isSome = true ↔
      ¬(action.currentRef.length = 40 ∧
        (normalizeVersion (extractVersionFromComment action.currentComment)
            = normalizeVersion updateInfo.latestVersion ∨
          action.currentRef = updateInfo.latestCommit))) ∧
    (action.currentRef.length ≠ 40 → (decideUpdate action updateInfo).isSome = true) := by
  have h := decideUpdate_isSome action updateInfo
  constructor
  · rw [h]
    simp [areVersionsEqual, -Bool.not_and]
  · intro hlen
    rw [h]
    simp [areVersionsEqual, hlen]

/-- Witness for C1 at the spec's example: current ref `"v4"` (length 2),
resolved display version also `"v4"` — a decision is still produced. -/
theorem decideUpdate_decision_iff_witness :
    (decideUpdate ⟨0, "uses: a/b@v4", "a/b", "a/b", "v4", "", false, ""⟩
      ⟨"", "v4", "c1d2", "a/b"⟩).isSome = true :=
  (decideUpdate_decision_iff ⟨0, "uses: a/b@v4", "a/b", "a/b", "v4", "", false, ""⟩
    ⟨"", "v4", "c1d2", "a/b"⟩ rfl).2 (by decide)

/-- CLAIM C2 (as stated, counterexample): the line `"-  uses: a/b@v1"`
(dash followed by two spaces) begins a sequence item and is extracted by
the parser, yet the rewritten line carries no `"- "` marker, because the
source detects the marker by searching for the substring `"- uses:"` in
the original line rather than by the line's sequence-item shape. -/
theorem updateActionLine_dash_counterexample :
    parseWorkflow "-  uses: a/b@v1" =
      [⟨0, "-  uses: a/b@v1", "a/b", "a/b", "v1", "", false, ""⟩] ∧
    updateActionLine ⟨0, "-  uses: a/b@v1", "a/b", "a/b", "v1", "", false, ""⟩ "v2" "c0ffee" =
      "uses: a/b@c0ffee # tag v2" ∧
    updateActionLine ⟨0, "-  uses: a/b@v1", "a/b", "a/b", "v1", "", false, ""⟩ "v2" "c0ffee" ≠
      "- uses: a/b@c0ffee # tag v2" := by
  decide

/-- CLAIM C2 (amended): for every extracted reference not marked
skip-pinning, `updateActionLine` returns the original indentation, then
the marker `"- "` present iff the original line contains the substring
`"- uses:"`, then `"uses: "`, the full path verbatim, `"@"`, the commit
hash, and `" # tag "` followed by the display version, replacing any
prior trailing comment. -/
theorem updateActionLine_format (content : String) (action : WorkflowAction)
    (hmem : action ∈ parseWorkflow content) (hskip : action.hasSkipPinning = false)
    (newVersion newCommit : String) :
    updateActionLine action newVersion newCommit =
      action.indentation ++ (if strContains action.original "- uses:" then "- " else "")
        ++ "uses: " ++ action.fullPath ++ "@" ++ newCommit ++ " # tag " ++ newVersion := by
  have h1 : ("- uses: " : String).data = ("- " : String).data ++ ("uses: " : String).data := rfl
  have h2 : (" # tag " : String).data = (" # " : String).data ++ ("tag " : String).data := rfl
  unfold updateActionLine
  rw [hskip]
  simp only [Bool.false_eq_true, if_false]
  split
  · apply String.ext
    simp only [String.data_append, h1, h2, List.append_assoc, List.cons_append,
      List.nil_append, if_true]
  · apply String.ext
    simp only [String.data_append, h2, List.append_assoc, List.cons_append,
      List.nil_append, if_false]

/-! ## Case-insensitive containment and trimming (claim C6) -/

theorem toLower_of_isJsSpace {c : Char} (h : isJsSpace c = true) : Char.toLower c = c := by
  have hn : ¬(c.toNat ≥ 65 ∧ c.toNat ≤ 90) := by
    simp only [isJsSpace, decide_eq_true_eq, Bool.or_eq_true] at h
    rcases h with h|h|h|h|h|h|h|h|⟨h1,h2⟩|h|h|h|h|h|h
    all_goals try (subst h; decide)
    have g1 : (8192 : Nat) ≤ c.toNat := h1
    omega
  show (if c.toNat ≥ 65 ∧ c.toNat ≤ 90 then Char.ofNat (c.toNat + 32) else c) = c
  rw [if_neg hn]

theorem matchCI_iff (p s : List Char) :
    matchCI p s = true ↔
      ∃ m r, s = m ++ r ∧ m.map Char.toLower = p.map Char.toLower := by
  induction p generalizing s with
  | nil =>
    simp only [matchCI, List.map_nil, true_iff]
    exact ⟨[], s, rfl, rfl⟩
  | cons p₀ ps ih =>
    cases s with
    | nil =>
      simp only [matchCI, List.map_cons, Bool.false_eq_true, false_iff]
      rintro ⟨m, r, hs, hm⟩
      cases m with
      | nil => simp at hm
      | cons a as => simp at hs
    | cons c cs =>
      simp only [matchCI, Bool.and_eq_true, decide_eq_true_eq, List.map_cons]
      constructor
      · rintro ⟨hc, hm⟩
        rcases (ih cs).mp hm with ⟨m, r, rfl, hmap⟩
        exact ⟨c :: m, r, rfl, by simp [hc, hmap]⟩
      · rintro ⟨m, r, hs, hm⟩
        cases m with
        | nil => simp at hm
        | cons a as =>
          simp only [List.cons_append, List.cons.injEq] at hs
          obtain ⟨rfl, hcs⟩ := hs
          simp only [List.map_cons, List.cons.injEq] at hm
          exact ⟨hm.1, (ih cs).mpr ⟨as, r, hcs, hm.2⟩⟩

theorem searchCI_iff (p t : List Char) :
    searchCI p t = true ↔
      ∃ l m r, t = l ++ m ++ r ∧ m.map Char.toLower = p.map Char.toLower := by
  induction t with
  | nil =>
    show matchCI p [] = true ↔ _
    rw [matchCI_iff]
    constructor
    · rintro ⟨m, r, hs, hm⟩
      exact ⟨[], m, r, by simpa using hs, hm⟩
    · rintro ⟨l, m, r, ht, hm⟩
      have h := ht.symm
      simp only [List.append_eq_nil] at h
      exact ⟨m, r, by simp [h.1.1, h.1.2, h.2], hm⟩
  | cons c cs ih =>
    simp only [searchCI, Bool.or_eq_true, ih, matchCI_iff]
    constructor
    · rintro (⟨m, r, hs, hm⟩ | ⟨l, m, r, hs, hm⟩)
      · exact ⟨[], m, r, by simpa using hs, hm⟩
      · exact ⟨c :: l, m, r, by simp [hs], hm⟩
    · rintro ⟨l, m, r, hs, hm⟩
      cases l with
      | nil => exact Or.inl ⟨m, r, by simpa using hs, hm⟩
      | cons a as =>
        simp only [List.cons_append, List.cons.injEq] at hs
        exact Or.inr ⟨as, m, r, hs.2, hm⟩

theorem dropWhile_append_eq (p : α → Bool) (a b : List α) :
    List.dropWhile p (a ++ b) =
      if a.all p then List.dropWhile p b else List.dropWhile p a ++ b := by
  induction a with
  | nil => simp
  | cons x xs ih =>
    by_cases hx : p x = true
    · simp [List.dropWhile_cons, hx, List.all_cons, ih]
    · simp [List.dropWhile_cons, hx, List.all_cons]

theorem dropWhile_mid (p : α → Bool) (l m r : List α) (hm : m ≠ [])
    (hmp : ∀ c ∈ m, p c = false) :
    ∃ l₂, List.dropWhile p (l ++ m ++ r) = l₂ ++ m ++ r := by
  rw [List.append_assoc, dropWhile_append_eq]
  split
  · refine ⟨[], ?_⟩
    cases m with
    | nil => exact absurd rfl hm
    | cons a as =>
      simp [List.dropWhile_cons, hmp a (List.mem_cons_self a as)]
  · exact ⟨List.dropWhile p l, by rw [List.append_assoc]⟩

theorem trim_decomposition (l : List Char) : ∃ a b, l = a ++ trimChars l ++ b := by
  unfold trimChars
  refine ⟨l.takeWhile isJsSpace,
    ((l.dropWhile isJsSpace).reverse.takeWhile isJsSpace).reverse, ?_⟩
  conv_lhs => rw [← List.takeWhile_append_dropWhile isJsSpace l]
  rw [List.append_assoc]
  congr 1
  conv_lhs => rw [← List.reverse_reverse (l.dropWhile isJsSpace),
    ← List.takeWhile_append_dropWhile isJsSpace (l.dropWhile isJsSpace).reverse]
  rw [List.reverse_append]

theorem trim_keeps_mid (l m r : List Char) (hmne : m ≠ [])
    (hmp : ∀ c ∈ m, isJsSpace c = false) :
    ∃ l₂ r₂, trimChars (l ++ m ++ r) = l₂ ++ m ++ r₂ := by
  unfold trimChars
  rcases dropWhile_mid isJsSpace l m r hmne hmp with ⟨l₂, hd⟩
  rw [hd]
  have hrev : (l₂ ++ m ++ r).reverse = r.reverse ++ m.reverse ++ l₂.reverse := by
    simp [List.reverse_append, List.append_assoc]
  rw [hrev]
  have hmrev : ∀ c ∈ m.reverse, isJsSpace c = false :=
    fun c hc => hmp c (List.mem_reverse.mp hc)
  have hmrevne : m.reverse ≠ [] := by simpa using hmne
  rcases dropWhile_mid isJsSpace r.reverse m.reverse l₂.reverse hmrevne hmrev with ⟨r₃, hd₂⟩
  rw [hd₂]
  refine ⟨l₂, r₃.reverse, ?_⟩
  simp [List.reverse_append, List.append_assoc]

/-- The skip-pinning test is insensitive to trimming the comment: the
marker contains no whitespace, so it survives `trim` in both
directions. -/
theorem skipPinningTest_trim_iff (raw : List Char) :
    skipPinningTest raw = true ↔
      searchCI "skip-pinning".toList (trimChars raw) = true := by
  unfold skipPinningTest
  rw [searchCI_iff, searchCI_iff]
  have hpat : List.map Char.toLower "skip-pinning".toList = "skip-pinning".toList := by
    decide
  have hns : ∀ x ∈ "skip-pinning".toList, isJsSpace x = false := by decide
  constructor
  · rintro ⟨l, m, r, hraw, hm⟩
    have hmns : ∀ c ∈ m, isJsSpace c = false := by
      intro c hc
      by_contra hcs
      rw [Bool.not_eq_false] at hcs
      have hmem : Char.toLower c ∈ List.map Char.toLower m := List.mem_map_of_mem _ hc
      rw [hm, hpat] at hmem
      rw [toLower_of_isJsSpace hcs] at hmem
      rw [hns c hmem] at hcs
      exact Bool.false_ne_true hcs
    have hmne : m ≠ [] := by
      intro h0
      rw [h0] at hm
      exact absurd hm (by decide)
    rw [hraw]
    rcases trim_keeps_mid l m r hmne hmns with ⟨l₂, r₂, htr⟩
    exact ⟨l₂, m, r₂, htr, hm⟩
  · rintro ⟨l, m, r, htr, hm⟩
    rcases trim_decomposition raw with ⟨a, b, hdec⟩
    refine ⟨a ++ l, m, r ++ b, ?_, hm⟩
    rw [hdec, htr]
    simp [List.append_assoc]

/-- Claim-side formalisation of "the trailing comment contains the
literal token `skip-pinning` case-insensitively". -/
def ContainsSkipCI (s : String) : Prop :=
  ∃ l m r, s.toList = l ++ m ++ r ∧ m.map Char.toLower = "skip-pinning".toList

/-- CLAIM C6: an extracted reference's skip flag is set iff its trailing
comment contains `skip-pinning` case-insensitively; every skip-marked
reference is excluded from the batch handed to the resolution loop; and
the line `"  - uses: a/b@c1d2 # skip-pinning"` extracts with the flag
set and yields an empty batch. -/
theorem hasSkipPinning_iff (content : String) (action : WorkflowAction)
    (hmem : action ∈ parseWorkflow content) :
    (action.hasSkipPinning = true ↔ ContainsSkipCI action.currentComment) ∧
    (action.hasSkipPinning = true → action ∉ actionsToUpdate content) ∧
    parseWorkflow "  - uses: a/b@c1d2 # skip-pinning" =
      [⟨0, "  - uses: a/b@c1d2 # skip-pinning", "a/b", "a/b", "c1d2",
        "skip-pinning", true, "  "⟩] ∧
    actionsToUpdate "  - uses: a/b@c1d2 # skip-pinning" = [] := by
  refine ⟨?_, ?_, by decide, by decide⟩
  · unfold parseWorkflow at hmem
    rcases List.mem_filterMap.mp hmem with ⟨p, _, hf⟩
    rcases hpl : parseUsesLine p.2.toList with _ | ⟨indent, path, ref, comment⟩
    · rw [hpl] at hf
      exact absurd hf (by simp)
    · rw [hpl] at hf
      simp only [Option.some.injEq] at hf
      subst hf
      show skipPinningTest comment = true ↔ ContainsSkipCI (trimStr (String.mk comment))
      rw [skipPinningTest_trim_iff]
      rw [searchCI_iff]
      unfold ContainsSkipCI
      have hpat : List.map Char.toLower "skip-pinning".toList = "skip-pinning".toList := by
        decide
      rw [hpat]
      have htl : (trimStr (String.mk comment)).toList = trimChars comment := rfl
      rw [htl]
  · intro hskip hmem₂
    have h := List.mem_filter.mp hmem₂
    rw [hskip] at h
    simpa using h.2

/-- Witness for C6 at the spec's example line. -/
theorem hasSkipPinning_iff_witness :
    ((WorkflowAction.hasSkipPinning ⟨0, "  - uses: a/b@c1d2 # skip-pinning", "a/b", "a/b",
        "c1d2", "skip-pinning", true, "  "⟩ = true ↔
      ContainsSkipCI (WorkflowAction.currentComment ⟨0, "  - uses: a/b@c1d2 # skip-pinning",
        "a/b", "a/b", "c1d2", "skip-pinning", true, "  "⟩)) ∧
     (WorkflowAction.hasSkipPinning ⟨0, "  - uses: a/b@c1d2 # skip-pinning", "a/b", "a/b",
        "c1d2", "skip-pinning", true, "  "⟩ = true →
       (⟨0, "  - uses: a/b@c1d2 # skip-pinning", "a/b", "a/b", "c1d2", "skip-pinning",
         true, "  "⟩ : WorkflowAction) ∉ actionsToUpdate "  - uses: a/b@c1d2 # skip-pinning") ∧
     parseWorkflow "  - uses: a/b@c1d2 # skip-pinning" =
       [⟨0, "  - uses: a/b@c1d2 # skip-pinning", "a/b", "a/b", "c1d2",
         "skip-pinning", true, "  "⟩] ∧
     actionsToUpdate "  - uses: a/b@c1d2 # skip-pinning" = []) :=
  hasSkipPinning_iff "  - uses: a/b@c1d2 # skip-pinning"
    ⟨0, "  - uses: a/b@c1d2 # skip-pinning", "a/b", "a/b", "c1d2", "skip-pinning",
      true, "  "⟩ (by decide)

/-! ## Path-identity characterisations (claim C4) -/

/-- Case-sensitive substring containment, characterised. -/
theorem containsSub_iff (pat t : List Char) :
    containsSub pat t = true ↔ ∃ l r, t = l ++ (pat ++ r) := by
  induction t with
  | nil =>
    simp only [containsSub, List.isEmpty_iff]
    constructor
    · rintro rfl
      exact ⟨[], [], rfl⟩
    · rintro ⟨l, r, h⟩
      have h₂ := h.symm
      simp only [List.append_eq_nil] at h₂
      exact h₂.2.1
  | cons c cs ih =>
    simp only [containsSub, Bool.or_eq_true, ih, List.isPrefixOf_iff_prefix]
    constructor
    · rintro (⟨r, hr⟩ | ⟨l, r, hs⟩)
      · exact ⟨[], r, hr.symm⟩
      · exact ⟨c :: l, r, by simp [hs]⟩
    · rintro ⟨l, r, hs⟩
      cases l with
      | nil => exact Or.inl ⟨r, by simpa using hs.symm⟩
      | cons a as =>
        simp only [List.cons_append, List.cons.injEq] at hs
        exact Or.inr ⟨as, r, hs.2⟩

theorem takeWhile_append_of (p : α → Bool) (xs : List α) (y : α) (ys : List α)
    (hxs : ∀ x ∈ xs, p x = true) (hy : p y = false) :
    List.takeWhile p (xs ++ y :: ys) = xs := by
  induction xs with
  | nil => simp [List.takeWhile_cons, hy]
  | cons a as ih =>
    simp only [List.cons_append, List.takeWhile_cons,
      hxs a (List.mem_cons_self a as), if_true]
    rw [ih (fun x hx => hxs x (List.mem_cons_of_mem a hx))]

theorem dropWhile_append_of (p : α → Bool) (xs : List α) (y : α) (ys : List α)
    (hxs : ∀ x ∈ xs, p x = true) (hy : p y = false) :
    List.dropWhile p (xs ++ y :: ys) = y :: ys := by
  induction xs with
  | nil => simp [List.dropWhile_cons, hy]
  | cons a as ih =>
    simp only [List.cons_append, List.dropWhile_cons,
      hxs a (List.mem_cons_self a as), if_true]
    exact ih (fun x hx => hxs x (List.mem_cons_of_mem a hx))

/-- Claim-side shape of a reusable-workflow path
`owner/repo/.github/workflows/<file>`. -/
def ReusableDecomp (path o r f : String) : Prop :=
  o ≠ "" ∧ r ≠ "" ∧ (∀ c ∈ o.toList, c ≠ '/') ∧ (∀ c ∈ r.toList, c ≠ '/') ∧
  path = o ++ "/" ++ r ++ "/.github/workflows/" ++ f

/-- Claim-side shape of a path with segments beyond `owner/repo`. -/
def SubDecomp (path o r t : String) : Prop :=
  o ≠ "" ∧ r ≠ "" ∧ (∀ c ∈ o.toList, c ≠ '/') ∧ (∀ c ∈ r.toList, c ≠ '/') ∧
  t ≠ "" ∧ path = o ++ "/" ++ r ++ "/" ++ t

theorem dropWhile_head_not (p : α → Bool) (l : List α) {c : α} {r : List α}
    (h : List.dropWhile p l = c :: r) : p c = false := by
  induction l with
  | nil => simp at h
  | cons a as ih =>
    rw [List.dropWhile_cons] at h
    split at h
    · exact ih h
    · rename_i hp
      cases h
      simpa using hp

theorem toList_eq_nil_iff (s : String) : s.toList = [] ↔ s = "" := by
  constructor
  · intro h
    exact String.ext h
  · rintro rfl
    rfl

theorem reusable_some_of_decomp {path o r f : String}
    (h : ReusableDecomp path o r f) :
    reusableWorkflowMatch path = some (o ++ "/" ++ r) := by
  obtain ⟨ho, hr, hoc, hrc, rfl⟩ := h
  have hdata : (o ++ "/" ++ r ++ "/.github/workflows/" ++ f).toList
      = o.toList ++ '/' :: (r.toList ++ '/' :: (".github/workflows/".toList ++ f.toList)) := by
    show (o ++ "/" ++ r ++ "/.github/workflows/" ++ f).data = _
    simp only [String.data_append, List.append_assoc]
    rfl
  have htk1 := takeWhile_append_of (fun c => !(c = '/')) o.toList
    '/' (r.toList ++ '/' :: (".github/workflows/".toList ++ f.toList))
    (fun x hx => by simp [hoc x hx]) (by simp)
  have hdr1 := dropWhile_append_of (fun c => !(c = '/')) o.toList
    '/' (r.toList ++ '/' :: (".github/workflows/".toList ++ f.toList))
    (fun x hx => by simp [hoc x hx]) (by simp)
  have htk2 := takeWhile_append_of (fun c => !(c = '/')) r.toList
    '/' (".github/workflows/".toList ++ f.toList)
    (fun x hx => by simp [hrc x hx]) (by simp)
  have hdr2 := dropWhile_append_of (fun c => !(c = '/')) r.toList
    '/' (".github/workflows/".toList ++ f.toList)
    (fun x hx => by simp [hrc x hx]) (by simp)
  unfold reusableWorkflowMatch
  rw [hdata, List.span_eq_take_drop, htk1, hdr1]
  dsimp only
  rw [if_neg (fun h : o.toList = [] => ho (String.ext h))]
  rw [List.span_eq_take_drop, htk2, hdr2]
  dsimp only
  rw [if_pos ⟨fun h : r.toList = [] => hr (String.ext h),
      List.isPrefixOf_iff_prefix.mpr (List.prefix_append _ _)⟩]
  congr 1
  apply String.ext
  simp [String.data_append]

theorem subAction_some_of_decomp {path o r t : String}
    (h : SubDecomp path o r t) :
    subActionMatch path = some (o ++ "/" ++ r) := by
  obtain ⟨ho, hr, hoc, hrc, ht, rfl⟩ := h
  have hdata : (o ++ "/" ++ r ++ "/" ++ t).toList
      = o.toList ++ '/' :: (r.toList ++ '/' :: t.toList) := by
    show (o ++ "/" ++ r ++ "/" ++ t).data = _
    simp only [String.data_append, List.append_assoc]
    rfl
  have htk1 := takeWhile_append_of (fun c => !(c = '/')) o.toList
    '/' (r.toList ++ '/' :: t.toList)
    (fun x hx => by simp [hoc x hx]) (by simp)
  have hdr1 := dropWhile_append_of (fun c => !(c = '/')) o.toList
    '/' (r.toList ++ '/' :: t.toList)
    (fun x hx => by simp [hoc x hx]) (by simp)
  have htk2 := takeWhile_append_of (fun c => !(c = '/')) r.toList
    '/' t.toList
    (fun x hx => by simp [hrc x hx]) (by simp)
  have hdr2 := dropWhile_append_of (fun c => !(c = '/')) r.toList
    '/' t.toList
    (fun x hx => by simp [hrc x hx]) (by simp)
  unfold subActionMatch
  rw [hdata, List.span_eq_take_drop, htk1, hdr1]
  dsimp only
  rw [if_neg (fun h : o.toList = [] => ho (String.ext h))]
  rw [List.span_eq_take_drop, htk2, hdr2]
  dsimp only
  rw [if_pos ⟨fun h : r.toList = [] => hr (String.ext h),
      fun h : t.toList = [] => ht (String.ext h)⟩]
  congr 1
  apply String.ext
  simp [String.data_append]

theorem reusable_decomp_of_some {path i : String}
    (h : reusableWorkflowMatch path = some i) :
    ∃ o r f, ReusableDecomp path o r f ∧ i = o ++ "/" ++ r := by
  unfold reusableWorkflowMatch at h
  rw [List.span_eq_take_drop] at h
  rcases hd : List.dropWhile (fun c => !(c = '/')) path.toList with _ | ⟨c, rest₂⟩
  · rw [hd] at h
    simp at h
  rw [hd] at h
  have hc : c = '/' := by simpa using dropWhile_head_not _ _ hd
  subst hc
  dsimp only at h
  by_cases ho : List.takeWhile (fun c => !(c = '/')) path.toList = []
  · rw [if_pos ho] at h
    exact absurd h (by simp)
  rw [if_neg ho] at h
  rw [List.span_eq_take_drop] at h
  rcases hd₂ : List.dropWhile (fun c => !(c = '/')) rest₂ with _ | ⟨c₂, rest₄⟩
  · rw [hd₂] at h
    simp at h
  rw [hd₂] at h
  have hc₂ : c₂ = '/' := by simpa using dropWhile_head_not _ _ hd₂
  subst hc₂
  dsimp only at h
  split_ifs at h with hcond
  · obtain ⟨hr₂, hpre⟩ := hcond
    rcases List.isPrefixOf_iff_prefix.mp hpre with ⟨frest, hfrest⟩
    simp only [Option.some.injEq] at h
    refine ⟨String.mk (List.takeWhile (fun c => !(c = '/')) path.toList),
      String.mk (List.takeWhile (fun c => !(c = '/')) rest₂),
      String.mk frest, ⟨?_, ?_, ?_, ?_, ?_⟩, ?_⟩
    · exact fun hh => ho (congrArg String.data hh)
    · exact fun hh => hr₂ (congrArg String.data hh)
    · intro x hx
      simpa using List.mem_takeWhile_imp hx
    · intro x hx
      simpa using List.mem_takeWhile_imp hx
    · apply String.ext
      have hsplit1 : path.toList =
          List.takeWhile (fun c => !(c = '/')) path.toList ++ '/' :: rest₂ := by
        conv_lhs => rw [← List.takeWhile_append_dropWhile (fun c => !(c = '/')) path.toList]
        rw [hd]
      have hsplit2 : rest₂ =
          List.takeWhile (fun c => !(c = '/')) rest₂ ++ '/' :: rest₄ := by
        conv_lhs => rw [← List.takeWhile_append_dropWhile (fun c => !(c = '/')) rest₂]
        rw [hd₂]
      show path.toList = _
      conv_lhs => rw [hsplit1, hsplit2, ← hfrest]
      simp only [String.data_append, List.append_assoc, List.singleton_append,
        List.cons_append]
      rfl
    · rw [← h]
      apply String.ext
      simp [String.data_append]

theorem subAction_decomp_of_some {path i : String}
    (h : subActionMatch path = some i) :
    ∃ o r t, SubDecomp path o r t ∧ i = o ++ "/" ++ r := by
  unfold subActionMatch at h
  rw [List.span_eq_take_drop] at h
  rcases hd : List.dropWhile (fun c => !(c = '/')) path.toList with _ | ⟨c, rest₂⟩
  · rw [hd] at h
    simp at h
  rw [hd] at h
  have hc : c = '/' := by simpa using dropWhile_head_not _ _ hd
  subst hc
  dsimp only at h
  by_cases ho : List.takeWhile (fun c => !(c = '/')) path.toList = []
  · rw [if_pos ho] at h
    exact absurd h (by simp)
  rw [if_neg ho] at h
  rw [List.span_eq_take_drop] at h
  rcases hd₂ : List.dropWhile (fun c => !(c = '/')) rest₂ with _ | ⟨c₂, rest₄⟩
  · rw [hd₂] at h
    simp at h
  rw [hd₂] at h
  have hc₂ : c₂ = '/' := by simpa using dropWhile_head_not _ _ hd₂
  subst hc₂
  dsimp only at h
  split_ifs at h with hcond
  · obtain ⟨hr₂, hrest⟩ := hcond
    simp only [Option.some.injEq] at h
    refine ⟨String.mk (List.takeWhile (fun c => !(c = '/')) path.toList),
      String.mk (List.takeWhile (fun c => !(c = '/')) rest₂),
      String.mk rest₄, ⟨?_, ?_, ?_, ?_, ?_, ?_⟩, ?_⟩
    · exact fun hh => ho (congrArg String.data hh)
    · exact fun hh => hr₂ (congrArg String.data hh)
    · intro x hx
      simpa using List.mem_takeWhile_imp hx
    · intro x hx
      simpa using List.mem_takeWhile_imp hx
    · intro hh
      exact hrest (congrArg String.data hh)
    · apply String.ext
      have hsplit1 : path.toList =
          List.takeWhile (fun c => !(c = '/')) path.toList ++ '/' :: rest₂ := by
        conv_lhs => rw [← List.takeWhile_append_dropWhile (fun c => !(c = '/')) path.toList]
        rw [hd]
      have hsplit2 : rest₂ =
          List.takeWhile (fun c => !(c = '/')) rest₂ ++ '/' :: rest₄ := by
        conv_lhs => rw [← List.takeWhile_append_dropWhile (fun c => !(c = '/')) rest₂]
        rw [hd₂]
      show path.toList = _
      conv_lhs => rw [hsplit1, hsplit2]
      simp only [String.data_append, List.append_assoc, List.singleton_append,
        List.cons_append]
      rfl
    · rw [← h]
      apply String.ext
      simp [String.data_append]

theorem dropWhile_eq_self_of (p : α → Bool) (l : List α)
    (h : ∀ c ∈ l, p c = false) : List.dropWhile p l = l := by
  cases l with
  | nil => rfl
  | cons a as =>
    rw [List.dropWhile_cons, if_neg]
    simp [h a (List.mem_cons_self a as)]

theorem trimStr_eq_self {s : String} (h : ∀ c ∈ s.toList, isJsSpace c = false) :
    trimStr s = s := by
  unfold trimStr trimChars
  rw [dropWhile_eq_self_of _ _ h,
    dropWhile_eq_self_of _ _ (fun c hc => h c (List.mem_reverse.mp hc)),
    List.reverse_reverse]
  exact mk_toList s

theorem reusable_contains {path i : String}
    (h : reusableWorkflowMatch path = some i) :
    strContains path ".github/workflows" = true := by
  rcases reusable_decomp_of_some h with ⟨o, r, f, ⟨_, _, _, _, rfl⟩, _⟩
  unfold strContains
  rw [containsSub_iff]
  refine ⟨o.toList ++ '/' :: (r.toList ++ ['/']), '/' :: f.toList, ?_⟩
  show (o ++ "/" ++ r ++ "/.github/workflows/" ++ f).data = _
  simp only [String.data_append, List.append_assoc, List.cons_append,
    List.singleton_append]
  rfl

/-- CLAIM C4: the repository identity follows the three-case precedence:
reusable-workflow shape wins and yields the first two segments; else a
path with segments beyond `owner/repo` and no `.github/workflows`
substring yields the first two segments; otherwise the path itself.
`"acme/toolkit/dist/setup"` yields `"acme/toolkit"`, and the extracted
reference preserves the full path unchanged.  (Path tokens produced by
the line scanner never contain whitespace, which the hypothesis
records.) -/
theorem deriveRepository_precedence (path o r f t : String)
    (hws : ∀ c ∈ path.toList, isJsSpace c = false) :
    (ReusableDecomp path o r f → deriveRepository path = o ++ "/" ++ r) ∧
    (SubDecomp path o r t → strContains path ".github/workflows" = false →
      deriveRepository path = o ++ "/" ++ r) ∧
    ((∀ o₂ r₂ f₂, ¬ ReusableDecomp path o₂ r₂ f₂) →
      ((∀ o₂ r₂ t₂, ¬ SubDecomp path o₂ r₂ t₂) ∨
        strContains path ".github/workflows" = true) →
      deriveRepository path = path) ∧
    deriveRepository "acme/toolkit/dist/setup" = "acme/toolkit" ∧
    parseWorkflow "- uses: acme/toolkit/dist/setup@v1" =
      [⟨0, "- uses: acme/toolkit/dist/setup@v1", "acme/toolkit",
        "acme/toolkit/dist/setup", "v1", "", false, ""⟩] := by
  refine ⟨?_, ?_, ?_, by decide, by decide⟩
  · intro hdec
    simp [deriveRepository, reusable_some_of_decomp hdec]
  · intro hdec hcon
    have hnone : reusableWorkflowMatch path = none := by
      rcases hm : reusableWorkflowMatch path with _ | i
      · rfl
      · rw [reusable_contains hm] at hcon
        exact absurd hcon (by simp)
    simp [deriveRepository, hnone, subAction_some_of_decomp hdec, hcon]
  · intro hnor hsub
    have hnone : reusableWorkflowMatch path = none := by
      rcases hm : reusableWorkflowMatch path with _ | i
      · rfl
      · rcases reusable_decomp_of_some hm with ⟨o₂, r₂, f₂, hd, _⟩
        exact absurd hd (hnor _ _ _)
    rcases hm : subActionMatch path with _ | i
    · simp [deriveRepository, hnone, hm, trimStr_eq_self hws]
    · rcases hsub with hforall | hcon
      · rcases subAction_decomp_of_some hm with ⟨o₂, r₂, t₂, hd, _⟩
        exact absurd hd (hforall _ _ _)
      · simp [deriveRepository, hnone, hm, hcon, trimStr_eq_self hws]

/-- Witness for C4 at the spec's sub-action example. -/
theorem deriveRepository_precedence_witness :
    deriveRepository "acme/toolkit/dist/setup" = "acme" ++ "/" ++ "toolkit" :=
  ((deriveRepository_precedence "acme/toolkit/dist/setup" "acme" "toolkit" "" "dist/setup"
    (by decide)).2.1)
    ⟨by decide, by decide, by decide, by decide, by decide, by decide⟩ (by decide)

/-- Witness for the amended C2 at a concrete extracted reference. -/
theorem updateActionLine_format_witness :
    updateActionLine ⟨0, "- uses: x/y@v1", "x/y", "x/y", "v1", "", false, ""⟩ "v2" "abc" =
      "" ++ (if strContains "- uses: x/y@v1" "- uses:" then "- " else "")
        ++ "uses: " ++ "x/y" ++ "@" ++ "abc" ++ " # tag " ++ "v2" :=
  updateActionLine_format "- uses: x/y@v1"
    ⟨0, "- uses: x/y@v1", "x/y", "x/y", "v1", "", false, ""⟩ (by decide) rfl "v2" "abc"

/-! ## Ordering lemmas for the semver comparison (claim C3) -/

theorem char_toNat_inj {a b : Char} (h : a.toNat = b.toNat) : a = b :=
  Char.ext (UInt32.ext h)

theorem natCmp_eq_iff {a b : Nat} : natCmp a b = .eq ↔ a = b := by
  unfold natCmp
  split_ifs with h₁ h₂ <;> constructor <;> intro h <;> first | omega | simp_all

theorem natCmp_lt_iff {a b : Nat} : natCmp a b = .lt ↔ a < b := by
  unfold natCmp
  split_ifs with h₁ h₂ <;> constructor <;> intro h <;> first | omega | simp_all

theorem natCmp_gt_iff {a b : Nat} : natCmp a b = .gt ↔ b < a := by
  unfold natCmp
  split_ifs with h₁ h₂ <;> constructor <;> intro h <;> first | omega | simp_all

theorem natCmp_swap (a b : Nat) : natCmp b a = (natCmp a b).swap := by
  unfold natCmp
  split_ifs <;> simp_all [Ordering.swap] <;> omega

theorem then_eq_eq {a b : Ordering} : a.then b = .eq ↔ a = .eq ∧ b = .eq := by
  cases a <;> simp [Ordering.then]

theorem then_eq_lt {a b : Ordering} : a.then b = .lt ↔ a = .lt ∨ (a = .eq ∧ b = .lt) := by
  cases a <;> simp [Ordering.then]

theorem then_eq_gt {a b : Ordering} : a.then b = .gt ↔ a = .gt ∨ (a = .eq ∧ b = .gt) := by
  cases a <;> simp [Ordering.then]

theorem then_swap (a b : Ordering) : (a.then b).swap = a.swap.then b.swap := by
  cases a <;> cases b <;> rfl

theorem char_toNat_eq_iff {a b : Char} : a.toNat = b.toNat ↔ a = b :=
  ⟨char_toNat_inj, fun h => h ▸ rfl⟩

theorem strCmp_eq_iff : ∀ {s t : List Char}, strCmp s t = .eq ↔ s = t := by
  intro s
  induction s with
  | nil => intro t; cases t <;> simp [strCmp]
  | cons a as ih =>
    intro t
    cases t with
    | nil => simp [strCmp]
    | cons b bs =>
      simp only [strCmp, then_eq_eq, natCmp_eq_iff, char_toNat_eq_iff, ih,
        List.cons.injEq]

theorem strCmp_swap : ∀ (s t : List Char), strCmp t s = (strCmp s t).swap := by
  intro s
  induction s with
  | nil => intro t; cases t <;> simp [strCmp, Ordering.swap]
  | cons a as ih =>
    intro t
    cases t with
    | nil => simp [strCmp, Ordering.swap]
    | cons b bs =>
      show (natCmp b.toNat a.toNat).then (strCmp bs as) = _
      rw [natCmp_swap, ih bs, ← then_swap]
      rfl

theorem strCmp_lt_trans : ∀ {s t u : List Char},
    strCmp s t = .lt → strCmp t u = .lt → strCmp s u = .lt := by
  intro s
  induction s with
  | nil =>
    intro t u h₁ h₂
    cases t with
    | nil => exact h₂
    | cons b bs =>
      cases u with
      | nil => simp [strCmp] at h₂
      | cons c cs => simp [strCmp]
  | cons a as ih =>
    intro t u h₁ h₂
    cases t with
    | nil => simp [strCmp] at h₁
    | cons b bs =>
      cases u with
      | nil => simp [strCmp] at h₂
      | cons c cs =>
        simp only [strCmp, then_eq_lt, natCmp_lt_iff, natCmp_eq_iff] at h₁ h₂ ⊢
        rcases h₁ with h₁ | ⟨h₁e, h₁s⟩ <;> rcases h₂ with h₂ | ⟨h₂e, h₂s⟩
        · exact Or.inl (by omega)
        · exact Or.inl (by omega)
        · exact Or.inl (by omega)
        · exact Or.inr ⟨by omega, ih h₁s h₂s⟩


theorem digitsVal_foldl (s : List Char) (a : Nat) :
    s.foldl (fun a c => 10 * a + digitVal c) a = a * 10 ^ s.length + digitsVal s := by
  induction s generalizing a with
  | nil => simp [digitsVal]
  | cons c cs ih =>
    show List.foldl _ (10 * a + digitVal c) cs = a * 10 ^ (c :: cs).length + digitsVal (c :: cs)
    rw [ih]
    have hsub : digitsVal (c :: cs) = digitVal c * 10 ^ cs.length + digitsVal cs := by
      show List.foldl _ (10 * 0 + digitVal c) cs = _
      rw [ih]
      simp
    rw [hsub]
    simp only [List.length_cons]
    ring

theorem digitsVal_cons (c : Char) (s : List Char) :
    digitsVal (c :: s) = digitVal c * 10 ^ s.length + digitsVal s := by
  show List.foldl _ (10 * 0 + digitVal c) s = _
  rw [digitsVal_foldl]
  simp

theorem digit_toNat_bounds {c : Char} (h : c.isDigit = true) :
    48 ≤ c.toNat ∧ c.toNat ≤ 57 := by
  simp only [Char.isDigit, Bool.and_eq_true, decide_eq_true_eq] at h
  exact ⟨h.1, h.2⟩

theorem digitVal_lt_10 {c : Char} (h : c.isDigit = true) : digitVal c < 10 := by
  have := digit_toNat_bounds h
  unfold digitVal
  omega

theorem digitsVal_lt (s : List Char) (h : s.all Char.isDigit = true) :
    digitsVal s < 10 ^ s.length := by
  induction s with
  | nil => simp [digitsVal]
  | cons c cs ih =>
    simp only [List.all_cons, Bool.and_eq_true] at h
    rw [digitsVal_cons]
    calc digitVal c * 10 ^ cs.length + digitsVal cs
        ≤ 9 * 10 ^ cs.length + digitsVal cs := by
          have := digitVal_lt_10 h.1
          exact Nat.add_le_add_right (Nat.mul_le_mul_right _ (by omega)) _
      _ < 9 * 10 ^ cs.length + 10 ^ cs.length := Nat.add_lt_add_left (ih h.2) _
      _ = 10 ^ (c :: cs).length := by
          simp only [List.length_cons]
          ring

theorem digitsVal_lower {c : Char} (cs : List Char) (hd : c.isDigit = true)
    (hne : c ≠ '0') : 10 ^ cs.length ≤ digitsVal (c :: cs) := by
  rw [digitsVal_cons]
  have hb := digit_toNat_bounds hd
  have h48 : c.toNat ≠ 48 := by
    intro h
    exact hne (char_toNat_inj h)
  have h1 : 1 ≤ digitVal c := by
    unfold digitVal
    omega
  calc 10 ^ cs.length = 1 * 10 ^ cs.length := by ring
    _ ≤ digitVal c * 10 ^ cs.length := Nat.mul_le_mul_right _ h1
    _ ≤ digitVal c * 10 ^ cs.length + digitsVal cs := Nat.le_add_right _ _

theorem digitsVal_inj_len : ∀ {s t : List Char}, s.length = t.length →
    s.all Char.isDigit = true → t.all Char.isDigit = true →
    digitsVal s = digitsVal t → s = t := by
  intro s
  induction s with
  | nil =>
    intro t hlen _ _ _
    cases t with
    | nil => rfl
    | cons d ds => simp at hlen
  | cons c cs ih =>
    intro t hlen hsd htd hv
    cases t with
    | nil => simp at hlen
    | cons d ds =>
      simp only [List.length_cons, Nat.add_right_cancel_iff] at hlen
      simp only [List.all_cons, Bool.and_eq_true] at hsd htd
      rw [digitsVal_cons, digitsVal_cons, hlen] at hv
      have hv1 : digitsVal cs < 10 ^ ds.length := hlen ▸ digitsVal_lt _ hsd.2
      have hv2 : digitsVal ds < 10 ^ ds.length := digitsVal_lt _ htd.2
      have hdiv : digitVal c = digitVal d := by
        have e1 : (digitVal c * 10 ^ ds.length + digitsVal cs) / 10 ^ ds.length
            = digitVal c := by
          rw [Nat.mul_comm (digitVal c) (10 ^ ds.length),
            Nat.mul_add_div (Nat.pos_pow_of_pos _ (by omega)),
            Nat.div_eq_of_lt hv1]
          omega
        have e2 : (digitVal d * 10 ^ ds.length + digitsVal ds) / 10 ^ ds.length
            = digitVal d := by
          rw [Nat.mul_comm (digitVal d) (10 ^ ds.length),
            Nat.mul_add_div (Nat.pos_pow_of_pos _ (by omega)),
            Nat.div_eq_of_lt hv2]
          omega
        rw [← e1, ← e2, hv]
      have hchar : c = d := by
        have hb1 := digit_toNat_bounds hsd.1
        have hb2 := digit_toNat_bounds htd.1
        apply char_toNat_inj
        unfold digitVal at hdiv
        omega
      have hrest : digitsVal cs = digitsVal ds := by
        rw [hdiv] at hv
        omega
      rw [hchar, ih hlen hsd.2 htd.2 hrest]

theorem digitsVal_inj : ∀ {s t : List Char}, s ≠ [] → t ≠ [] →
    s.all Char.isDigit = true → t.all Char.isDigit = true →
    noLeadZero s = true → noLeadZero t = true →
    digitsVal s = digitsVal t → s = t := by
  intro s t hs ht hsd htd hsl htl hv
  cases s with
  | nil => exact absurd rfl hs
  | cons c cs =>
    cases t with
    | nil => exact absurd rfl ht
    | cons d ds =>
      simp only [List.all_cons, Bool.and_eq_true] at hsd htd
      by_cases hc0 : c = '0'
      · have hcs : cs = [] := by
          cases cs with
          | nil => rfl
          | cons e es =>
            rw [hc0] at hsl
            simp [noLeadZero] at hsl
        subst hc0
        subst hcs
        have hv0 : digitsVal ['0'] = 0 := by decide
        rw [hv0] at hv
        by_cases hd0 : d = '0'
        · have hds : ds = [] := by
            cases ds with
            | nil => rfl
            | cons e es =>
              rw [hd0] at htl
              simp [noLeadZero] at htl
          rw [hd0, hds]
        · have := digitsVal_lower ds htd.1 hd0
          have hp : 0 < 10 ^ ds.length := Nat.pos_pow_of_pos _ (by omega)
          omega
      · by_cases hd0 : d = '0'
        · have hds : ds = [] := by
            cases ds with
            | nil => rfl
            | cons e es =>
              rw [hd0] at htl
              simp [noLeadZero] at htl
          subst hd0
          subst hds
          have hv0 : digitsVal ['0'] = 0 := by decide
          rw [hv0] at hv
          have := digitsVal_lower cs hsd.1 hc0
          have hp : 0 < 10 ^ cs.length := Nat.pos_pow_of_pos _ (by omega)
          omega
        · have hlow1 := digitsVal_lower cs hsd.1 hc0
          have hlow2 := digitsVal_lower ds htd.1 hd0
          have hup1 : digitsVal (c :: cs) < 10 ^ (cs.length + 1) := by
            have := digitsVal_lt (c :: cs) (by simp [hsd.1, hsd.2])
            simpa using this
          have hup2 : digitsVal (d :: ds) < 10 ^ (ds.length + 1) := by
            have := digitsVal_lt (d :: ds) (by simp [htd.1, htd.2])
            simpa using this
          have hlen : cs.length = ds.length := by
            have l1 : cs.length < ds.length + 1 := by
              by_contra hcon
              have : 10 ^ (ds.length + 1) ≤ 10 ^ cs.length :=
                Nat.pow_le_pow_right (by omega) (by omega)
              omega
            have l2 : ds.length < cs.length + 1 := by
              by_contra hcon
              have : 10 ^ (cs.length + 1) ≤ 10 ^ ds.length :=
                Nat.pow_le_pow_right (by omega) (by omega)
              omega
            omega
          exact digitsVal_inj_len (by simpa using hlen)
            (by simp [hsd.1, hsd.2]) (by simp [htd.1, htd.2]) hv

/-- Well-formedness of a stored prerelease identifier as produced by the
parser: stored numbers are below `MAX_SAFE_INTEGER`; stored strings that
re-test as numeric have a value at least `MAX_SAFE_INTEGER` and no
leading zero. -/
def WFid : PreId → Prop
  | .num n => n < maxSafeInteger
  | .str s => (!s.isEmpty && s.all Char.isDigit) = true →
      maxSafeInteger ≤ digitsVal s ∧ noLeadZero s = true

/-- Well-formedness of a parsed version. -/
def WFv (v : SemVer) : Prop := ∀ id ∈ v.prerelease, WFid id

theorem isNumId_str_iff {s : List Char} :
    isNumId (.str s) = true ↔ s ≠ [] ∧ s.all Char.isDigit = true := by
  cases s <;> simp [isNumId]

theorem preIdCmp_swap (a b : PreId) : preIdCmp b a = (preIdCmp a b).swap := by
  unfold preIdCmp
  cases ha : isNumId a <;> cases hb : isNumId b <;> simp [ha, hb] <;>
    first
      | rfl
      | exact strCmp_swap _ _
      | exact natCmp_swap _ _

theorem preIdCmp_lt_trans {a b c : PreId} (h₁ : preIdCmp a b = .lt)
    (h₂ : preIdCmp b c = .lt) : preIdCmp a c = .lt := by
  unfold preIdCmp at h₁ h₂ ⊢
  cases ha : isNumId a <;> cases hb : isNumId b <;> cases hc : isNumId c <;>
    simp_all [natCmp_lt_iff]
  · exact strCmp_lt_trans h₁ h₂
  · omega

theorem preIdCmp_eq_of_WF {a b : PreId} (ha : WFid a) (hb : WFid b)
    (h : preIdCmp a b = .eq) : a = b := by
  cases a with
  | num n =>
    cases b with
    | num m =>
      simp only [preIdCmp, isNumId, Bool.and_self, if_true, idVal] at h
      rw [natCmp_eq_iff.mp h]
    | str s =>
      simp only [preIdCmp, isNumId, Bool.true_and, idVal] at h
      by_cases hc : (!s.isEmpty && s.all Char.isDigit) = true
      · rw [if_pos hc] at h
        have hv := natCmp_eq_iff.mp h
        have h1 : n < maxSafeInteger := ha
        have h2 := (hb hc).1
        omega
      · rw [if_neg hc] at h
        simp at h
  | str s =>
    cases b with
    | num m =>
      simp only [preIdCmp, isNumId, Bool.and_true, idVal] at h
      by_cases hc : (!s.isEmpty && s.all Char.isDigit) = true
      · rw [if_pos hc] at h
        have hv := natCmp_eq_iff.mp h
        have h1 : m < maxSafeInteger := hb
        have h2 := (ha hc).1
        omega
      · rw [if_neg hc] at h
        simp at h
    | str t =>
      by_cases hs : isNumId (.str s) = true <;> by_cases ht : isNumId (.str t) = true
      · simp only [preIdCmp, hs, ht, Bool.and_self, if_true, idVal] at h
        have hv := natCmp_eq_iff.mp h
        have hsc := isNumId_str_iff.mp hs
        have htc := isNumId_str_iff.mp ht
        have hsp := ha (by simpa [isNumId, List.isEmpty_eq_false] using hsc)
        have htp := hb (by simpa [isNumId, List.isEmpty_eq_false] using htc)
        rw [digitsVal_inj hsc.1 htc.1 hsc.2 htc.2 hsp.2 htp.2 hv]
      · simp [preIdCmp, hs, ht] at h
      · simp [preIdCmp, hs, ht] at h
      · simp only [preIdCmp, hs, ht, Bool.false_and, Bool.false_eq_true, if_false,
          idChars] at h
        rw [strCmp_eq_iff.mp h]

theorem preLoop_swap : ∀ (a b : List PreId), preLoop b a = (preLoop a b).swap := by
  intro a
  induction a with
  | nil => intro b; cases b <;> rfl
  | cons x xs ih =>
    intro b
    cases b with
    | nil => rfl
    | cons y ys =>
      show (if y = x then preLoop ys xs else preIdCmp y x) = _
      by_cases hxy : x = y
      · subst hxy
        simp [preLoop, ih ys]
      · rw [if_neg (fun h => hxy h.symm)]
        show _ = (if x = y then preLoop xs ys else preIdCmp x y).swap
        rw [if_neg hxy, preIdCmp_swap]

theorem preLoop_lt_trans : ∀ {a b c : List PreId}, preLoop a b = .lt →
    preLoop b c = .lt → preLoop a c = .lt := by
  intro a
  induction a with
  | nil =>
    intro b c h₁ h₂
    cases b with
    | nil => simp [preLoop] at h₁
    | cons y ys =>
      cases c with
      | nil => simp [preLoop] at h₂
      | cons z zs => rfl
  | cons x xs ih =>
    intro b c h₁ h₂
    cases b with
    | nil => simp [preLoop] at h₁
    | cons y ys =>
      cases c with
      | nil => simp [preLoop] at h₂
      | cons z zs =>
        simp only [preLoop] at h₁ h₂ ⊢
        by_cases hxy : x = y <;> by_cases hyz : y = z
        · rw [if_pos hxy] at h₁
          rw [if_pos hyz] at h₂
          rw [if_pos (hxy.trans hyz)]
          exact ih h₁ h₂
        · rw [if_pos hxy] at h₁
          rw [if_neg hyz] at h₂
          rw [if_neg (hxy ▸ hyz), hxy]
          exact h₂
        · rw [if_neg hxy] at h₁
          rw [if_pos hyz] at h₂
          rw [if_neg (hyz ▸ hxy), ← hyz]
          exact h₁
        · rw [if_neg hxy] at h₁
          rw [if_neg hyz] at h₂
          have hxz : x ≠ z := by
            intro he
            subst he
            rw [preIdCmp_swap] at h₂
            rw [h₁] at h₂
            simp [Ordering.swap] at h₂
          rw [if_neg hxz]
          exact preIdCmp_lt_trans h₁ h₂

theorem preLoop_eq_of_WF : ∀ {a b : List PreId}, (∀ id ∈ a, WFid id) →
    (∀ id ∈ b, WFid id) → preLoop a b = .eq → a = b := by
  intro a
  induction a with
  | nil =>
    intro b _ _ h
    cases b with
    | nil => rfl
    | cons y ys => simp [preLoop] at h
  | cons x xs ih =>
    intro b ha hb h
    cases b with
    | nil => simp [preLoop] at h
    | cons y ys =>
      simp only [preLoop] at h
      by_cases hxy : x = y
      · subst hxy
        rw [if_pos rfl] at h
        rw [ih (fun id hid => ha id (List.mem_cons_of_mem x hid))
          (fun id hid => hb id (List.mem_cons_of_mem x hid)) h]
      · rw [if_neg hxy] at h
        exact absurd (preIdCmp_eq_of_WF (ha x (List.mem_cons_self x xs))
          (hb y (List.mem_cons_self y ys)) h) hxy

theorem comparePre_swap (a b : List PreId) : comparePre b a = (comparePre a b).swap := by
  cases a <;> cases b
  · rfl
  · rfl
  · rfl
  · exact preLoop_swap _ _

theorem comparePre_lt_trans {a b c : List PreId} (h₁ : comparePre a b = .lt)
    (h₂ : comparePre b c = .lt) : comparePre a c = .lt := by
  cases a with
  | nil =>
    cases b with
    | nil => simp [comparePre] at h₁
    | cons y ys => simp [comparePre] at h₁
  | cons x xs =>
    cases b with
    | nil =>
      cases c with
      | nil => simp [comparePre] at h₂
      | cons z zs => simp [comparePre] at h₂
    | cons y ys =>
      cases c with
      | nil => rfl
      | cons z zs => exact preLoop_lt_trans h₁ h₂

theorem comparePre_eq_of_WF {a b : List PreId} (ha : ∀ id ∈ a, WFid id)
    (hb : ∀ id ∈ b, WFid id) (h : comparePre a b = .eq) : a = b := by
  cases a with
  | nil =>
    cases b with
    | nil => rfl
    | cons y ys => simp [comparePre] at h
  | cons x xs =>
    cases b with
    | nil => simp [comparePre] at h
    | cons y ys => exact preLoop_eq_of_WF ha hb h

theorem compareMain_swap (x y : SemVer) : compareMain y x = (compareMain x y).swap := by
  unfold compareMain
  rw [natCmp_swap, natCmp_swap x.minor, natCmp_swap x.patch, then_swap, then_swap]

theorem compareMain_eq_iff {x y : SemVer} : compareMain x y = .eq ↔
    x.major = y.major ∧ x.minor = y.minor ∧ x.patch = y.patch := by
  simp [compareMain, then_eq_eq, natCmp_eq_iff]

theorem compareMain_lt_trans {x y z : SemVer} (h₁ : compareMain x y = .lt)
    (h₂ : compareMain y z = .lt) : compareMain x z = .lt := by
  simp only [compareMain, then_eq_lt, then_eq_eq, natCmp_lt_iff, natCmp_eq_iff]
    at h₁ h₂ ⊢
  omega

theorem semverCompare_swap (x y : SemVer) :
    semverCompare y x = (semverCompare x y).swap := by
  unfold semverCompare
  rw [compareMain_swap, comparePre_swap, then_swap]

theorem semverCompare_eq_of_WF {x y : SemVer} (hx : WFv x) (hy : WFv y)
    (h : semverCompare x y = .eq) : x = y := by
  unfold semverCompare at h
  rw [then_eq_eq] at h
  obtain ⟨hm, hp⟩ := h
  obtain ⟨h1, h2, h3⟩ := compareMain_eq_iff.mp hm
  have h4 := comparePre_eq_of_WF hx hy hp
  cases x
  cases y
  simp_all

theorem compareMain_congr_right {x y z : SemVer} (h : compareMain y z = .eq) :
    compareMain x y = compareMain x z := by
  obtain ⟨h1, h2, h3⟩ := compareMain_eq_iff.mp h
  simp [compareMain, h1, h2, h3]

theorem compareMain_congr_left {x y z : SemVer} (h : compareMain x y = .eq) :
    compareMain x z = compareMain y z := by
  obtain ⟨h1, h2, h3⟩ := compareMain_eq_iff.mp h
  simp [compareMain, h1, h2, h3]

theorem semverCompare_lt_trans {x y z : SemVer} (h₁ : semverCompare x y = .lt)
    (h₂ : semverCompare y z = .lt) : semverCompare x z = .lt := by
  unfold semverCompare at h₁ h₂ ⊢
  rw [then_eq_lt] at h₁ h₂ ⊢
  rcases h₁ with h₁ | ⟨h₁e, h₁p⟩ <;> rcases h₂ with h₂ | ⟨h₂e, h₂p⟩
  · exact Or.inl (compareMain_lt_trans h₁ h₂)
  · exact Or.inl ((compareMain_congr_right h₂e) ▸ h₁)
  · exact Or.inl ((compareMain_congr_left h₁e) ▸ h₂)
  · exact Or.inr ⟨(compareMain_congr_right h₂e) ▸ h₁e,
      comparePre_lt_trans h₁p h₂p⟩

theorem semverCompare_le_trans {x y z : SemVer} (hx : WFv x) (hy : WFv y)
    (hz : WFv z) (h₁ : semverCompare x y ≠ .gt) (h₂ : semverCompare y z ≠ .gt) :
    semverCompare x z ≠ .gt := by
  rcases hxy : semverCompare x y with _ | _ | _
  · rcases hyz : semverCompare y z with _ | _ | _
    · rw [semverCompare_lt_trans hxy hyz]
      simp
    · rw [semverCompare_eq_of_WF hy hz hyz] at hxy
      rw [hxy]
      simp
    · exact absurd hyz h₂
  · rw [semverCompare_eq_of_WF hx hy hxy]
    exact h₂
  · exact absurd hxy h₁

theorem semverCompare_le_total (x y : SemVer) :
    semverCompare x y ≠ .gt ∨ semverCompare y x ≠ .gt := by
  rcases h : semverCompare x y with _ | _ | _
  · exact Or.inl (by simp [h])
  · exact Or.inl (by simp [h])
  · refine Or.inr ?_
    rw [semverCompare_swap, h]
    simp [Ordering.swap]

theorem classifyTok_WFid {t : List Char} {id : PreId}
    (h : classifyTok t = some id) : WFid id := by
  unfold classifyTok at h
  split_ifs at h with h1 h2 h3 h4
  · injection h with h6
    subst h6
    exact h4
  · injection h with h6
    subst h6
    intro _
    exact ⟨by omega, h3⟩
  · injection h with h6
    subst h6
    intro hcond
    simp only [Bool.and_eq_true] at hcond
    exact absurd hcond.2 h2

theorem classifyAll_WFid : ∀ {ts : List (List Char)} {ids : List PreId},
    classifyAll ts = some ids → ∀ id ∈ ids, WFid id := by
  intro ts
  induction ts with
  | nil =>
    intro ids h id hid
    simp only [classifyAll, Option.some.injEq] at h
    subst h
    simp at hid
  | cons t ts ih =>
    intro ids h id hid
    simp only [classifyAll] at h
    rcases h1 : classifyTok t with _ | i <;> rw [h1] at h
    · simp at h
    · rcases h2 : classifyAll ts with _ | is <;> rw [h2] at h
      · simp at h
      · simp only [Option.some.injEq] at h
        subst h
        rcases List.mem_cons.mp hid with rfl | hmem
        · exact classifyTok_WFid h1
        · exact ih h2 id hmem

theorem parseTail_WFid {cs : List Char} {ids : List PreId}
    (h : parseTail cs = some ids) : ∀ id ∈ ids, WFid id := by
  unfold parseTail at h
  split at h
  · injection h with h1
    subst h1
    simp
  · split_ifs at h
    injection h with h1
    subst h1
    simp
  · rename_i rest
    rcases h1 : classifyAll (splitDot
        (rest.takeWhile (fun c => isIdentChar c || c = '.'))) with _ | is
    · simp only [h1] at h
      exact absurd h (by simp)
    · simp only [h1] at h
      split at h
      · injection h with h2
        subst h2
        exact classifyAll_WFid h1
      · split_ifs at h
        injection h with h2
        subst h2
        exact classifyAll_WFid h1
      · exact absurd h (by simp)
  · exact absurd h (by simp)

theorem parseSemver_WF {s : String} {v : SemVer} (h : parseSemver s = some v) :
    WFv v := by
  simp only [parseSemver] at h
  split_ifs at h
  split at h
  · split at h
    · split at h
      · split_ifs at h
        obtain ⟨ids, h2, hv⟩ := Option.map_eq_some'.mp h
        subst hv
        intro id hid
        exact parseTail_WFid h2 id hid
      · exact absurd h (by simp)
    · exact absurd h (by simp)
  · exact absurd h (by simp)

theorem parseD_WF (s : String) : WFv (parseD s) := by
  unfold parseD
  rcases h : parseSemver s with _ | v
  · intro id hid
    simp at hid
  · exact parseSemver_WF h

theorem releaseLe_total (a b : GitHubRelease) :
    releaseLe a b = true ∨ releaseLe b a = true := by
  unfold releaseLe semverCompareStr
  rcases semverCompare_le_total (parseD b.tag_name) (parseD a.tag_name) with h | h
  · exact Or.inl (by simpa using h)
  · exact Or.inr (by simpa using h)

theorem releaseLe_trans (a b c : GitHubRelease) (h₁ : releaseLe a b = true)
    (h₂ : releaseLe b c = true) : releaseLe a c = true := by
  unfold releaseLe semverCompareStr at h₁ h₂ ⊢
  simp only [ne_eq, decide_eq_true_eq] at h₁ h₂ ⊢
  exact semverCompare_le_trans (parseD_WF _) (parseD_WF _) (parseD_WF _) h₂ h₁

/-- The insertion sort is pairwise-ordered for any total transitive
boolean relation. -/
theorem pairwise_orderedInsertBy {le : α → α → Bool}
    (htot : ∀ a b, le a b = true ∨ le b a = true)
    (htr : ∀ a b c, le a b = true → le b c = true → le a c = true)
    (x : α) : ∀ {l : List α}, l.Pairwise (fun a b => le a b = true) →
    (orderedInsertBy le x l).Pairwise (fun a b => le a b = true) := by
  intro l
  induction l with
  | nil =>
    intro _
    simp [orderedInsertBy]
  | cons y ys ih =>
    intro hp
    rcases List.pairwise_cons.mp hp with ⟨hy, hys⟩
    unfold orderedInsertBy
    split
    · rename_i hxy
      refine List.pairwise_cons.mpr ⟨?_, hp⟩
      intro b hb
      rcases List.mem_cons.mp hb with rfl | hmem
      · exact hxy
      · exact htr x y b hxy (hy b hmem)
    · rename_i hxy
      refine List.pairwise_cons.mpr ⟨?_, ih hys⟩
      intro b hb
      rcases mem_orderedInsertBy.mp hb with rfl | hmem
      · rcases htot b y with h | h
        · exact absurd h hxy
        · exact h
      · exact hy b hmem

theorem pairwise_sortBy {le : α → α → Bool}
    (htot : ∀ a b, le a b = true ∨ le b a = true)
    (htr : ∀ a b c, le a b = true → le b c = true → le a c = true)
    (l : List α) : (sortBy le l).Pairwise (fun a b => le a b = true) := by
  induction l with
  | nil => simp [sortBy]
  | cons x xs ih => exact pairwise_orderedInsertBy htot htr x ih

theorem sortBy_head_le {le : α → α → Bool}
    (htot : ∀ a b, le a b = true ∨ le b a = true)
    (htr : ∀ a b c, le a b = true → le b c = true → le a c = true)
    {l : List α} {x : α} {rest : List α} (h : sortBy le l = x :: rest) :
    ∀ y ∈ l, le x y = true := by
  intro y hy
  have hmem : y ∈ x :: rest := h ▸ mem_sortBy.mpr hy
  rcases List.mem_cons.mp hmem with rfl | hmem₂
  · rcases htot y y with h | h <;> exact h
  · have hp := pairwise_sortBy htot htr l
    rw [h] at hp
    exact (List.pairwise_cons.mp hp).1 y hmem₂

theorem sortBy_eq_nil_iff {le : α → α → Bool} {l : List α} :
    sortBy le l = [] ↔ l = [] := by
  cases l with
  | nil => simp [sortBy]
  | cons x xs =>
    simp only [sortBy]
    constructor
    · intro h
      have : x ∈ orderedInsertBy le x (sortBy le xs) := mem_orderedInsertBy.mpr (Or.inl rfl)
      rw [h] at this
      simp at this
    · intro h
      simp at h

/-- CLAIM C3: the releases tier selects a release whose tag is maximal
in semantic-version order among the releases that are not flagged as
prereleases and whose tag is a valid semantic version; it yields no
candidate iff no release qualifies; and the release set with prerelease
`v5.0.0-beta` and stable `v4.9.0` selects `v4.9.0`. -/
theorem findLatestSemverRelease_spec (releases : List GitHubRelease) :
    (findLatestSemverRelease releases = none ↔
      ∀ rel ∈ releases, ¬(rel.prerelease = false ∧
        (parseSemver rel.tag_name).isSome = true)) ∧
    (∀ x, findLatestSemverRelease releases = some x →
      x ∈ releases ∧ x.prerelease = false ∧ (parseSemver x.tag_name).isSome = true ∧
      ∀ rel ∈ releases, rel.prerelease = false →
        (parseSemver rel.tag_name).isSome = true →
        semverCompare (parseD rel.tag_name) (parseD x.tag_name) ≠ .gt) ∧
    findLatestSemverRelease [⟨"v5.0.0-beta", "", true⟩, ⟨"v4.9.0", "", false⟩] =
      some ⟨"v4.9.0", "", false⟩ := by
  refine ⟨⟨?_, ?_⟩, ?_, by decide⟩
  · intro h rel hrel hcon
    rcases hsort : sortBy releaseLe
        ((releases.filter (fun release => !release.prerelease)).filter
          (fun release => (parseSemver release.tag_name).isSome)) with _ | ⟨l₀, ls⟩
    · have hnil := sortBy_eq_nil_iff.mp hsort
      have hmem : rel ∈ (releases.filter (fun release => !release.prerelease)).filter
          (fun release => (parseSemver release.tag_name).isSome) :=
        List.mem_filter.mpr ⟨List.mem_filter.mpr ⟨hrel, by simp [hcon.1]⟩, hcon.2⟩
      rw [hnil] at hmem
      simp at hmem
    · unfold findLatestSemverRelease at h
      rw [hsort] at h
      simp at h
  · intro hall
    unfold findLatestSemverRelease
    have hnil : (releases.filter (fun release => !release.prerelease)).filter
        (fun release => (parseSemver release.tag_name).isSome) = [] := by
      rcases hV : (releases.filter (fun release => !release.prerelease)).filter
          (fun release => (parseSemver release.tag_name).isSome) with _ | ⟨v₀, vs⟩
      · exact hV
      · exfalso
        have hmem : v₀ ∈ (releases.filter (fun release => !release.prerelease)).filter
            (fun release => (parseSemver release.tag_name).isSome) :=
          hV ▸ List.mem_cons_self v₀ vs
        rcases List.mem_filter.mp hmem with ⟨hmem₂, hq⟩
        rcases List.mem_filter.mp hmem₂ with ⟨hmem₃, hp⟩
        exact hall v₀ hmem₃ ⟨by simpa using hp, hq⟩
    rw [hnil]
    rfl
  · intro x hx
    unfold findLatestSemverRelease at hx
    rcases hsort : sortBy releaseLe
        ((releases.filter (fun release => !release.prerelease)).filter
          (fun release => (parseSemver release.tag_name).isSome)) with _ | ⟨l₀, ls⟩
    · rw [hsort] at hx
      simp at hx
    · rw [hsort] at hx
      simp only [List.head?_cons, Option.some.injEq] at hx
      subst hx
      have hmem : l₀ ∈ (releases.filter (fun release => !release.prerelease)).filter
          (fun release => (parseSemver release.tag_name).isSome) :=
        mem_sortBy.mp (hsort ▸ List.mem_cons_self l₀ ls)
      rcases List.mem_filter.mp hmem with ⟨hmem₂, hq⟩
      rcases List.mem_filter.mp hmem₂ with ⟨hmem₃, hp⟩
      refine ⟨hmem₃, by simpa using hp, hq, ?_⟩
      intro rel hrel hpre hsome
      have hrelmem : rel ∈ (releases.filter (fun release => !release.prerelease)).filter
          (fun release => (parseSemver release.tag_name).isSome) :=
        List.mem_filter.mpr ⟨List.mem_filter.mpr ⟨hrel, by simp [hpre]⟩, hsome⟩
      have hle := sortBy_head_le releaseLe_total releaseLe_trans hsort rel hrelmem
      unfold releaseLe semverCompareStr at hle
      simpa using hle

/-- Witness for C3 at the spec's release set. -/
theorem findLatestSemverRelease_spec_witness :
    (⟨"v4.9.0", "", false⟩ : GitHubRelease) ∈
      [(⟨"v5.0.0-beta", "", true⟩ : GitHubRelease), ⟨"v4.9.0", "", false⟩] ∧
    (GitHubRelease.prerelease ⟨"v4.9.0", "", false⟩) = false ∧
    (parseSemver (GitHubRelease.tag_name ⟨"v4.9.0", "", false⟩)).isSome = true :=
  ⟨((findLatestSemverRelease_spec
      [⟨"v5.0.0-beta", "", true⟩, ⟨"v4.9.0", "", false⟩]).2.1 _ (by decide)).1,
   ((findLatestSemverRelease_spec
      [⟨"v5.0.0-beta", "", true⟩, ⟨"v4.9.0", "", false⟩]).2.1 _ (by decide)).2.1,
   ((findLatestSemverRelease_spec
      [⟨"v5.0.0-beta", "", true⟩, ⟨"v4.9.0", "", false⟩]).2.1 _ (by decide)).2.2.1⟩

/-! ## Environments for the resolution-service claims (C5, C9) -/

theorem bind_except_error {α β : Type} (e : Unit) (f : α → Except Unit β) :
    (Except.error e >>= f : Except Unit β) = .error e := rfl

theorem bind_except_ok {α β : Type} (a : α) (f : α → Except Unit β) :
    (Except.ok a >>= f : Except Unit β) = f a := rfl

theorem pure_except {α : Type} (a : α) :
    (pure a : Except Unit α) = .ok a := rfl

/-- A concrete environment exhibiting the annotated-tag fallback miss:
the releases tier selects `1.0.0`, the tag-ref request fails, and the
tags list does not contain the tag, so `getCommitForTag` returns the
empty string. -/
def envC5 : GitHubEnv where
  releases := fun _ => some [⟨"1.0.0", "", false⟩]
  tags := fun _ => some []
  refForTag := fun _ _ => none
  tagObject := fun _ => none
  repoInfo := fun _ => none
  commitForBranch := fun _ _ => none

/-- Full-hash predicate used by claim C5 ("a complete full-length commit
hash"): a 40-character string. -/
def isFullHash (s : String) : Prop := s.length = 40

/-- CLAIM C5 (as stated, counterexample): a successful resolution can
carry an empty `latestCommit` — the `tag?.commit.sha || ''` fallback of
`getCommitForTag`. -/
theorem getLatestActionVersion_empty_commit :
    getLatestActionVersion envC5 "o/r" =
      Except.ok ⟨"", "1.0.0", "", "o/r"⟩ ∧
    ¬ isFullHash (ActionUpdate.latestCommit ⟨"", "1.0.0", "", "o/r"⟩) := by
  constructor
  · rfl
  · intro h
    unfold isFullHash at h
    exact absurd h (by decide)

/-- Every sha string the environment can return has full hash length. -/
def EnvShasFull (env : GitHubEnv) : Prop :=
  (∀ repo tags, env.tags repo = some tags → ∀ t ∈ tags, t.commit.sha.length = 40) ∧
  (∀ repo tag ref, env.refForTag repo tag = some ref → ref.sha.length = 40) ∧
  (∀ url obj, env.tagObject url = some obj → obj.sha.length = 40) ∧
  (∀ repo branch c, env.commitForBranch repo branch = some c → c.sha.length = 40)

theorem getCommitForTag_full_or_empty {env : GitHubEnv} (henv : EnvShasFull env)
    (repository tagName : String) {sha : String}
    (h : getCommitForTag env repository tagName = .ok sha) :
    sha.length = 40 ∨ sha = "" := by
  simp only [getCommitForTag] at h
  split at h
  · rename_i tagRef hr
    split_ifs at h with htype
    · split at h
      · rename_i tagObj hobj
        injection h with h₁
        subst h₁
        exact Or.inl (henv.2.2.1 _ tagObj hobj)
      · rename_i hobj
        split at h
        · rename_i tags ht
          injection h with h₁
          subst h₁
          rcases hf : tags.find? (fun t => t.name == tagName) with _ | t
          · rw [hf]
            simp
          · rw [hf]
            exact Or.inl (henv.1 repository tags ht t (List.mem_of_find?_eq_some hf))
        · exact Except.noConfusion h
    · injection h with h₁
      subst h₁
      exact Or.inl (henv.2.1 repository tagName tagRef hr)
  · rename_i hr
    split at h
    · rename_i tags ht
      injection h with h₁
      subst h₁
      rcases hf : tags.find? (fun t => t.name == tagName) with _ | t
      · rw [hf]
        simp
      · rw [hf]
        exact Or.inl (henv.1 repository tags ht t (List.mem_of_find?_eq_some hf))
    · exact Except.noConfusion h

theorem tagsTier_full {env : GitHubEnv} (henv : EnvShasFull env)
    (repository : String) {u : ActionUpdate}
    (h : tagsTier env repository = .ok u) :
    u.latestCommit.length = 40 := by
  unfold tagsTier at h
  rcases ht : env.tags repository with _ | tags <;> rw [ht] at h
  · simp only [orErr, bind_except_error] at h
    exact Except.noConfusion h
  · simp only [orErr, bind_except_ok] at h
    rcases tags with _ | ⟨t₀, trest⟩
    · rcases hinfo : env.repoInfo repository with _ | info <;> rw [hinfo] at h
      · simp only [orErr, bind_except_error] at h
        exact Except.noConfusion h
      · simp only [orErr, bind_except_ok] at h
        rcases hc : env.commitForBranch repository
            (if info.default_branch = "" then "main" else info.default_branch)
            with _ | c <;> rw [hc] at h
        · simp only [orErr, bind_except_error] at h
          exact Except.noConfusion h
        · simp only [orErr, bind_except_ok, pure_except] at h
          injection h with h₁
          subst h₁
          exact henv.2.2.2 repository _ c hc
    · rcases hl : findLatestSemverTag (t₀ :: trest) with _ | latest <;> rw [hl] at h
      · simp only [pure_except] at h
        injection h with h₁
        subst h₁
        exact henv.1 repository _ ht t₀ (List.mem_cons_self t₀ trest)
      · simp only [pure_except] at h
        injection h with h₁
        subst h₁
        have hmem : latest ∈ t₀ :: trest := by
          unfold findLatestSemverTag at hl
          rcases hsort : sortBy tagLe ((t₀ :: trest).filter
              (fun tag => (parseSemver tag.name).isSome)) with _ | ⟨l₀, ls⟩
          · rw [hsort] at hl
            simp at hl
          · rw [hsort] at hl
            simp only [List.head?_cons, Option.some.injEq] at hl
            have hm : latest ∈ sortBy tagLe ((t₀ :: trest).filter
                (fun tag => (parseSemver tag.name).isSome)) := by
              rw [hsort, hl]
              exact List.mem_cons_self _ _
            exact List.mem_of_mem_filter (mem_sortBy.mp hm)
        exact henv.1 repository _ ht latest hmem

/-- CLAIM C5 (amended): whenever every sha supplied by the environment
is a full 40-character hash, every successful resolution result carries
a `latestCommit` that is a full hash, except on the annotated-tag
fallback path with the tag missing from the tags list, where it is the
empty string. -/
theorem getLatestActionVersion_commit_full_or_empty
    (env : GitHubEnv) (repository : String) (u : ActionUpdate)
    (henv : EnvShasFull env)
    (h : getLatestActionVersion env repository = .ok u) :
    u.latestCommit.length = 40 ∨ u.latestCommit = "" := by
  unfold getLatestActionVersion at h
  rcases hr : env.releases repository with _ | releases <;> rw [hr] at h
  · simp only [orErr, bind_except_error] at h
    exact Except.noConfusion h
  · simp only [orErr, bind_except_ok] at h
    split_ifs at h with hlen
    · split at h
      · rename_i latest hf
        rcases hc : getCommitForTag env repository latest.tag_name with e | sha <;>
          rw [hc] at h
        · simp only [bind_except_error] at h
          exact Except.noConfusion h
        · simp only [bind_except_ok, pure_except] at h
          injection h with h₁
          subst h₁
          exact getCommitForTag_full_or_empty henv repository latest.tag_name hc
      · exact Or.inl (tagsTier_full henv repository h)
    · exact Or.inl (tagsTier_full henv repository h)

/-- Witness for the amended C5: an environment whose shas are all full
hashes resolves to a full-hash commit. -/
theorem getLatestActionVersion_commit_full_or_empty_witness :
    (ActionUpdate.latestCommit
      ⟨"", "main", "0123456789012345678901234567890123456789", "o/r"⟩).length = 40 ∨
    (ActionUpdate.latestCommit
      ⟨"", "main", "0123456789012345678901234567890123456789", "o/r"⟩) = "" :=
  getLatestActionVersion_commit_full_or_empty
    ⟨fun _ => some [], fun _ => some [], fun _ _ => none, fun _ => none,
      fun _ => some ⟨"main"⟩,
      fun _ _ => some ⟨"0123456789012345678901234567890123456789"⟩⟩
    "o/r" ⟨"", "main", "0123456789012345678901234567890123456789", "o/r"⟩
    ⟨fun repo tags h => by
        injection h with h₁
        subst h₁
        intro t ht
        exact absurd ht (List.not_mem_nil t),
      fun repo tag ref h => Option.noConfusion h,
      fun url obj h => Option.noConfusion h,
      fun repo branch c hc => by
        injection hc with h₁
        subst h₁
        decide⟩
    rfl

/-- The default-branch tier in isolation: empty tags list, repository
info and branch head available. -/
theorem tagsTier_default_branch (env : GitHubEnv) (repo : String)
    (info : RepoInfo) (c : CommitRef)
    (ht : env.tags repo = some [])
    (hinfo : env.repoInfo repo = some info)
    (hc : env.commitForBranch repo
      (if info.default_branch = "" then "main" else info.default_branch) = some c) :
    tagsTier env repo =
      .ok ⟨"", if info.default_branch = "" then "main" else info.default_branch,
        c.sha, repo⟩ := by
  unfold tagsTier
  rw [ht]
  simp only [orErr, bind_except_ok]
  rw [hinfo]
  simp only [orErr, bind_except_ok]
  rw [hc]
  simp only [orErr, bind_except_ok, pure_except]

/-- CLAIM C9: when the releases tier yields no candidate and the tags
list is empty, resolution falls to the default-branch tier: the display
version is the default branch name (with the `'main'` default of
`repo.default_branch || 'main'`) and the commit is that branch's head
sha. -/
theorem getLatestActionVersion_default_branch
    (env : GitHubEnv) (repo : String) (rs : List GitHubRelease)
    (info : RepoInfo) (c : CommitRef)
    (hr : env.releases repo = some rs)
    (hnone : findLatestSemverRelease rs = none)
    (ht : env.tags repo = some [])
    (hinfo : env.repoInfo repo = some info)
    (hc : env.commitForBranch repo
      (if info.default_branch = "" then "main" else info.default_branch) = some c) :
    getLatestActionVersion env repo =
      .ok ⟨"", if info.default_branch = "" then "main" else info.default_branch,
        c.sha, repo⟩ := by
  unfold getLatestActionVersion
  rw [hr]
  simp only [orErr, bind_except_ok]
  have htier := tagsTier_default_branch env repo info c ht hinfo hc
  by_cases hlen : rs.length > 0
  · rw [if_pos hlen, hnone]
    exact htier
  · rw [if_neg hlen]
    exact htier

/-- Environment for the C9 witness: no releases, no tags, an empty
`default_branch` field (exercising the `'main'` default), and a head
commit on `main`. -/
def envC9 : GitHubEnv where
  releases := fun _ => some []
  tags := fun _ => some []
  refForTag := fun _ _ => none
  tagObject := fun _ => none
  repoInfo := fun _ => some ⟨""⟩
  commitForBranch := fun _ b => if b = "main" then some ⟨"headsha"⟩ else none

/-- Witness for C9 at `envC9`. -/
theorem getLatestActionVersion_default_branch_witness :
    getLatestActionVersion envC9 "o/r" =
      .ok ⟨"", if RepoInfo.default_branch ⟨""⟩ = "" then "main"
        else RepoInfo.default_branch ⟨""⟩, CommitRef.sha ⟨"headsha"⟩, "o/r"⟩ :=
  getLatestActionVersion_default_branch envC9 "o/r" [] ⟨""⟩ ⟨"headsha"⟩
    rfl rfl rfl rfl rfl
